import Mathlib

/-!
Verification of the Shortform-educator summarization core.

Shallow embedding of the TypeScript sources:
  * `src/lib/ai/hierarchical-chunker.ts` — token estimation, structure
    detection, document segmentation, truncation;
  * the multi-level summarization service — pipeline orchestration;
  * the database client's `createSummary` / `createSummaries` — versioned
    summary bookkeeping, modelled as pure transitions on a list of rows;
  * the aggregation service — insight index validation and concept
    deduplication.

Strings are modelled as `List Char`.  JavaScript real-valued arithmetic
(`Math.ceil(w * 1.3 + p * 0.5)`, `Math.round(x)`, `Math.floor(x)`) is
modelled exactly over the rationals, expressed with natural-number
division.  Wall-clock fields (durations, timestamps) and the random
`nanoid` are outside the embedding; ids are drawn from a counter.
-/

namespace Shortform

/-- JavaScript `\s` / `trim` whitespace, restricted to the ASCII range. -/
def isWsB (c : Char) : Bool :=
  c = ' ' ∨ c = '\t' ∨ c = '\n' ∨ c = '\r' ∨ c = '\x0b' ∨ c = '\x0c'

/-- Punctuation class of `estimateTokens`: `[.,!?;:'"()\[\]{}]`. -/
def isPunctB (c : Char) : Bool :=
  c = '.' ∨ c = ',' ∨ c = '!' ∨ c = '?' ∨ c = ';' ∨ c = ':' ∨ c = '\'' ∨
  c = '"' ∨ c = '(' ∨ c = ')' ∨ c = '[' ∨ c = ']' ∨ c = '\x7b' ∨ c = '\x7d'

/-- Number of maximal non-whitespace runs, i.e. the length of
`text.split(/\s+/).filter(w => w.length > 0)`.  The boolean argument says
whether the previous character was part of a word. -/
def wordCountAux : List Char → Bool → Nat
  | [], _ => 0
  | c :: r, inw =>
    if isWsB c then wordCountAux r false
    else (if inw then 0 else 1) + wordCountAux r true

/-- Word count of `estimateTokens` / `getWordCount`. -/
def wordCount (l : List Char) : Nat := wordCountAux l false

/-- `estimateTokens` from `hierarchical-chunker.ts`:
`Math.ceil(words * 1.3 + punctuation * 0.5)`, modelled exactly as
`⌈(13·words + 5·punct)/10⌉`. -/
def estimateTokens (l : List Char) : Nat :=
  (13 * wordCount l + 5 * (l.countP isPunctB) + 9) / 10

/-- `tokensToChars`: `tokens * 4`. -/
def tokensToChars (tokens : Nat) : Nat := tokens * 4

/-- `getWordCount` from `hierarchical-chunker.ts`. -/
def getWordCount (l : List Char) : Nat := wordCount l

/-- Left trim: drop leading whitespace. -/
def ltrim (l : List Char) : List Char := l.dropWhile isWsB

/-- Right trim: drop trailing whitespace. -/
def rtrim (l : List Char) : List Char := (l.reverse.dropWhile isWsB).reverse

/-- JavaScript `String.prototype.trim`. -/
def trim (l : List Char) : List Char := ltrim (rtrim l)

/-- Last index at which `pat` occurs in `l` (JS `lastIndexOf`, `none` for -1). -/
def lastIndexOfSub (pat l : List Char) : Option Nat :=
  match l with
  | [] => if pat.isPrefixOf [] then some 0 else none
  | _ :: t =>
    match lastIndexOfSub pat t with
    | some i => some (i + 1)
    | none => if pat.isPrefixOf l then some 0 else none

/-- `truncateToTokens` from `hierarchical-chunker.ts`.  The float
expression `Math.floor(text.length * (maxTokens / currentTokens) * 0.95)`
is modelled exactly over the rationals. -/
def truncateToTokens (text : List Char) (maxTokens : Nat) : List Char :=
  let currentTokens := estimateTokens text
  if currentTokens ≤ maxTokens then text
  else
    let targetChars := text.length * maxTokens * 95 / (currentTokens * 100)
    let truncated := text.take targetChars
    let fallback :=
      match lastIndexOfSub [' '] truncated with
      | some j => truncated.take j
      | none => truncated.take (truncated.length - 1)
    match lastIndexOfSub ['.', ' '] truncated with
    | some i => if targetChars < 2 * i then truncated.take (i + 1) else fallback
    | none => fallback

/-! ## Paragraph splitting (`text.split(/\n\n+/)`) -/

/-- Locate the leftmost occurrence of two consecutive newlines, returning
the part before it and the part after the two newlines. -/
def breakNN : List Char → Option (List Char × List Char)
  | [] => none
  | c :: rest =>
    if c = '\n' ∧ rest.head? = some '\n' then some ([], rest.tail)
    else
      match breakNN rest with
      | none => none
      | some (a, b) => some (c :: a, b)

theorem breakNN_eq_append : ∀ {l a b : List Char},
    breakNN l = some (a, b) → l = a ++ '\n' :: '\n' :: b := by
  intro l
  induction l with
  | nil => intro a b h; simp [breakNN] at h
  | cons c rest ih =>
    intro a b h
    by_cases hc : c = '\n' ∧ rest.head? = some '\n'
    · rw [breakNN, if_pos hc] at h
      cases rest with
      | nil => simp at hc
      | cons r rt =>
        simp only [List.head?, Option.some.injEq] at hc
        simp only [List.tail, Option.some.injEq, Prod.mk.injEq] at h
        obtain ⟨ha, hb⟩ := h
        subst ha hb
        simp [hc.1, hc.2]
    · rw [breakNN, if_neg hc] at h
      cases hbr : breakNN rest with
      | none => rw [hbr] at h; exact absurd h (by simp)
      | some p =>
        obtain ⟨a', b'⟩ := p
        rw [hbr] at h
        simp only [Option.some.injEq, Prod.mk.injEq] at h
        obtain ⟨ha, hb⟩ := h
        subst hb
        have := ih hbr
        subst this
        rw [← ha]
        simp

theorem breakNN_some_length {l a b : List Char}
    (h : breakNN l = some (a, b)) : l.length = a.length + 2 + b.length := by
  have := breakNN_eq_append h
  subst this
  simp
  omega

/-- No blank-line separator: the text contains no two consecutive newlines;
this is what makes a span a single atomic paragraph. -/
def noDD (l : List Char) : Prop := ¬ (['\n', '\n'] <:+: l)

instance (l : List Char) : Decidable (noDD l) := by
  unfold noDD
  infer_instance

theorem noDD_of_infix {l l' : List Char} (h : noDD l) (hinf : l' <:+: l) :
    noDD l' := fun hc => h (hc.trans hinf)

theorem breakNN_none_noDD : ∀ {l : List Char}, breakNN l = none → noDD l := by
  intro l
  induction l with
  | nil => intro _ h; exact absurd (List.eq_nil_of_infix_nil h) (by simp)
  | cons c rest ih =>
    intro h hinf
    by_cases hc : c = '\n' ∧ rest.head? = some '\n'
    · rw [breakNN, if_pos hc] at h; exact absurd h (by simp)
    · rw [breakNN, if_neg hc] at h
      cases hbr : breakNN rest with
      | some p => rw [hbr] at h; exact absurd h (by simp)
      | none =>
        rcases List.infix_cons_iff.mp hinf with hpre | hrest
        · rcases hpre with ⟨t, ht⟩
          cases rest with
          | nil => simp at ht
          | cons r rt =>
            simp only [List.cons_append, List.cons.injEq] at ht
            exact hc ⟨ht.1.symm, by simp [← ht.2.1]⟩
        · exact ih hbr hrest

theorem breakNN_some_noDD_left {l a b : List Char}
    (h : breakNN l = some (a, b)) : noDD a := by
  induction l generalizing a b with
  | nil => simp [breakNN] at h
  | cons c rest ih =>
    by_cases hc : c = '\n' ∧ rest.head? = some '\n'
    · rw [breakNN, if_pos hc] at h
      obtain ⟨ha, _⟩ := Prod.mk.injEq .. ▸ Option.some.injEq .. ▸ h
      subst ha
      intro hinf
      exact absurd (List.eq_nil_of_infix_nil hinf) (by simp)
    · rw [breakNN, if_neg hc] at h
      cases hbr : breakNN rest with
      | none => rw [hbr] at h; exact absurd h (by simp)
      | some p =>
        obtain ⟨a', b'⟩ := p
        rw [hbr] at h
        simp only [Option.some.injEq, Prod.mk.injEq] at h
        obtain ⟨ha, hb⟩ := h
        subst hb
        rw [← ha]
        intro hinf
        rcases List.infix_cons_iff.mp hinf with hpre | hrest
        · rcases hpre with ⟨t, ht⟩
          have hr := breakNN_eq_append hbr
          simp only [List.cons_append, List.cons.injEq] at ht
          refine hc ⟨ht.1.symm, ?_⟩
          cases a' with
          | nil => exact absurd ht.2 (by simp)
          | cons x xt =>
            rw [hr]
            simp only [List.cons.injEq] at ht
            simp [← ht.2.1]
        · exact ih hbr hrest

/-- Fuel-indexed splitting loop (structural recursion so that the kernel
can evaluate it; the fuel is always sufficient when called through
`splitParas`). -/
def splitParasGo : Nat → List Char → List (List Char)
  | 0, l => [l]
  | fuel + 1, l =>
    match breakNN l with
    | none => [l]
    | some (a, b) => a :: splitParasGo fuel (b.dropWhile (· = '\n'))

/-- `text.split(/\n\n+/)`: split at each maximal run of two or more
newlines. -/
def splitParas (l : List Char) : List (List Char) :=
  splitParasGo (l.length + 1) l

theorem splitParasGo_ne_nil (fuel : Nat) (l : List Char) :
    splitParasGo fuel l ≠ [] := by
  cases fuel with
  | zero => simp [splitParasGo]
  | succ n =>
    rw [splitParasGo]
    cases breakNN l with
    | none => simp
    | some p => obtain ⟨a, b⟩ := p; simp

theorem splitParas_ne_nil (l : List Char) : splitParas l ≠ [] :=
  splitParasGo_ne_nil _ l

theorem splitParasGo_noDD : ∀ (fuel : Nat) (l : List Char), l.length < fuel →
    ∀ p ∈ splitParasGo fuel l, noDD p := by
  intro fuel
  induction fuel with
  | zero => intro l hl; omega
  | succ n ih =>
    intro l hl p hp
    rw [splitParasGo] at hp
    cases hbr : breakNN l with
    | none =>
      rw [hbr] at hp
      rw [List.mem_singleton] at hp
      subst hp
      exact breakNN_none_noDD hbr
    | some q =>
      obtain ⟨a, b⟩ := q
      rw [hbr] at hp
      rcases List.mem_cons.mp hp with hpa | hpr
      · subst hpa
        exact breakNN_some_noDD_left hbr
      · have hlen := breakNN_some_length hbr
        have hdw : (b.dropWhile (· = '\n')).length ≤ b.length :=
          (List.dropWhile_sublist _).length_le
        exact ih _ (by omega) p hpr

/-- Every emitted paragraph is an atomic paragraph (no `\n\n` inside). -/
theorem splitParas_noDD (l : List Char) : ∀ p ∈ splitParas l, noDD p :=
  splitParasGo_noDD _ l (by omega)

theorem splitParasGo_length_sum : ∀ (fuel : Nat) (l : List Char),
    l.length < fuel →
    ((splitParasGo fuel l).map (fun p => p.length + 2)).sum ≤ l.length + 2 := by
  intro fuel
  induction fuel with
  | zero => intro l hl; omega
  | succ n ih =>
    intro l hl
    rw [splitParasGo]
    cases hbr : breakNN l with
    | none => simp
    | some q =>
      obtain ⟨a, b⟩ := q
      have hlen := breakNN_some_length hbr
      have hdw : (b.dropWhile (· = '\n')).length ≤ b.length :=
        (List.dropWhile_sublist _).length_le
      have := ih (b.dropWhile (· = '\n')) (by omega)
      simp only [List.map_cons, List.sum_cons]
      omega

/-- Separator accounting: paragraphs plus two characters per paragraph
never exceed the original length by more than one separator's worth. -/
theorem splitParas_length_sum (l : List Char) :
    ((splitParas l).map (fun p => p.length + 2)).sum ≤ l.length + 2 :=
  splitParasGo_length_sum _ l (by omega)

/-! ## Trim and word-count lemmas -/

theorem dropWhile_suffix' (p : Char → Bool) : ∀ l : List Char, l.dropWhile p <:+ l := by
  intro l
  induction l with
  | nil => simp
  | cons c r ih =>
    by_cases hc : p c
    · rw [List.dropWhile_cons_of_pos hc]
      exact ih.trans (List.suffix_cons c r)
    · rw [List.dropWhile_cons_of_neg hc]

theorem dropWhile_append_of_forall {p : Char → Bool} :
    ∀ {a b : List Char}, (∀ c ∈ a, p c) → (a ++ b).dropWhile p = b.dropWhile p := by
  intro a
  induction a with
  | nil => intro b _; simp
  | cons c r ih =>
    intro b h
    have hc : p c := h c (by simp)
    rw [List.cons_append, List.dropWhile_cons_of_pos hc]
    exact ih fun x hx => h x (by simp [hx])

theorem rtrim_pre (l : List Char) : rtrim l <+: l := by
  have h := dropWhile_suffix' isWsB l.reverse
  have := (@List.reverse_prefix _ (l.reverse.dropWhile isWsB) l.reverse).mpr h
  rw [List.reverse_reverse] at this
  exact this

theorem ltrim_suffix (l : List Char) : ltrim l <:+ l := dropWhile_suffix' isWsB l

theorem trim_inf (l : List Char) : trim l <:+: l :=
  ((ltrim_suffix (rtrim l)).isInfix).trans ((rtrim_pre l).isInfix)

theorem trim_length_le (l : List Char) : (trim l).length ≤ l.length :=
  (trim_inf l).sublist.length_le

theorem rtrim_append_ws {l s : List Char} (h : ∀ c ∈ s, isWsB c) :
    rtrim (l ++ s) = rtrim l := by
  unfold rtrim
  rw [List.reverse_append, dropWhile_append_of_forall (by simpa using h)]

theorem trim_append_nn (w : List Char) :
    trim (w ++ ['\n', '\n']) = ltrim (rtrim w) := by
  unfold trim
  rw [rtrim_append_ws (by simp [isWsB])]

theorem trim_append_nn_length (w : List Char) :
    (trim (w ++ ['\n', '\n'])).length ≤ w.length := by
  rw [trim_append_nn]
  exact le_trans (ltrim_suffix (rtrim w)).sublist.length_le
    (rtrim_pre w).sublist.length_le

theorem trim_append_nn_noDD {w : List Char} (h : noDD w) :
    noDD (trim (w ++ ['\n', '\n'])) := by
  rw [trim_append_nn]
  exact noDD_of_infix h
    (((ltrim_suffix (rtrim w)).isInfix).trans ((rtrim_pre w).isInfix))

/-- Whether the last character processed so far is part of a word. -/
def wordEndState : List Char → Bool → Bool
  | [], s => s
  | c :: r, _ => wordEndState r (!isWsB c)

theorem wordCountAux_cons_ws {c : Char} {r : List Char} {s : Bool}
    (hc : isWsB c = true) : wordCountAux (c :: r) s = wordCountAux r false := by
  simp [wordCountAux, hc]

theorem wordCountAux_cons_word {c : Char} {r : List Char} {s : Bool}
    (hc : isWsB c = false) :
    wordCountAux (c :: r) s = (if s then 0 else 1) + wordCountAux r true := by
  simp [wordCountAux, hc]

theorem wordEndState_cons (c : Char) (r : List Char) (s : Bool) :
    wordEndState (c :: r) s = wordEndState r (!isWsB c) := rfl

theorem wordCountAux_append : ∀ (a b : List Char) (s : Bool),
    wordCountAux (a ++ b) s = wordCountAux a s + wordCountAux b (wordEndState a s) := by
  intro a
  induction a with
  | nil => intro b s; simp [wordCountAux, wordEndState]
  | cons c r ih =>
    intro b s
    cases hc : isWsB c with
    | true =>
      rw [List.cons_append, wordCountAux_cons_ws hc, wordCountAux_cons_ws hc,
        wordEndState_cons, hc, ih b false]
      rfl
    | false =>
      rw [List.cons_append, wordCountAux_cons_word hc, wordCountAux_cons_word hc,
        wordEndState_cons, hc, ih b true]
      simp only [Bool.not_false]
      omega

theorem wordCount_le_append (a b : List Char) :
    wordCount a ≤ wordCount (a ++ b) := by
  unfold wordCount
  rw [wordCountAux_append]
  omega

theorem estimateTokens_le_append (a b : List Char) :
    estimateTokens a ≤ estimateTokens (a ++ b) := by
  unfold estimateTokens
  have h1 := wordCount_le_append a b
  have h2 : a.countP isPunctB ≤ (a ++ b).countP isPunctB := by
    rw [List.countP_append]; omega
  exact Nat.div_le_div_right (by omega)

/-! ## Claim theorems: token estimation (C7) and truncation (C10) -/

/-- C7 counterexample: `estimateTokens` is **not** monotonic in text
length — the 4-character text `".,.,"` is estimated at 4 tokens while the
5-character text `"aaaaa"` is estimated at 2. -/
theorem estimateTokens_not_length_monotone :
    ".,.,".toList.length < "aaaaa".toList.length ∧
      estimateTokens "aaaaa".toList < estimateTokens ".,.,".toList := by
  constructor <;> decide

/-- C7 (amended): `estimateTokens` is a pure total function returning a
natural number, it returns 0 on the empty string, and it is monotone
under extension (appending text never decreases the estimate) — though
not monotone in raw length. -/
theorem estimateTokens_amended :
    estimateTokens ([] : List Char) = 0 ∧
      ∀ a b : List Char, estimateTokens a ≤ estimateTokens (a ++ b) := by
  refine ⟨by decide, ?_⟩
  exact estimateTokens_le_append

/-- C10: `truncateToTokens` always returns a prefix of its input, and
returns the input unchanged whenever the estimate is within budget. -/
theorem truncateToTokens_spec (text : List Char) (maxTokens : Nat) :
    truncateToTokens text maxTokens <+: text ∧
      (estimateTokens text ≤ maxTokens → truncateToTokens text maxTokens = text) := by
  by_cases h : estimateTokens text ≤ maxTokens
  · have heq : truncateToTokens text maxTokens = text := by
      simp only [truncateToTokens]
      rw [if_pos h]
    exact ⟨by rw [heq], fun _ => heq⟩
  · refine ⟨?_, fun hc => absurd hc h⟩
    simp only [truncateToTokens]
    rw [if_neg h]
    set targetChars := text.length * maxTokens * 95 / (estimateTokens text * 100)
      with ht
    have htr : ∀ k, (text.take targetChars).take k <+: text :=
      fun k => (List.take_prefix k _).trans (List.take_prefix targetChars text)
    cases h1 : lastIndexOfSub ['.', ' '] (text.take targetChars) with
    | some i =>
      simp only [h1]
      by_cases hcmp : targetChars < 2 * i
      · rw [if_pos hcmp]
        exact htr (i + 1)
      · rw [if_neg hcmp]
        cases h2 : lastIndexOfSub [' '] (text.take targetChars) with
        | some j => simp only [h2]; exact htr j
        | none => simp only [h2]; exact htr _
    | none =>
      simp only [h1]
      cases h2 : lastIndexOfSub [' '] (text.take targetChars) with
      | some j => simp only [h2]; exact htr j
      | none => simp only [h2]; exact htr _

/-- C10 witness: a concrete in-budget input is returned unchanged (and is
trivially a prefix of itself). -/
theorem truncateToTokens_spec_witness :
    truncateToTokens "hello world".toList 99 = "hello world".toList :=
  (truncateToTokens_spec "hello world".toList 99).2 (by decide)

/-! ## Structure detection (`detectStructure`)

Each heading regex of `hierarchical-chunker.ts` is rendered as a
deterministic matcher on a single (already trimmed) line; the greedy
quantifiers of the anchored patterns admit exactly one match, so
`dropWhile`-style maximal munch is faithful.  A matcher returns the text
captured by the pattern's inner group (JS `match[2]`). -/

/-- `[:\s]` class of the chapter/part/section patterns. -/
def isColonWsB (c : Char) : Bool := c = ':' ∨ isWsB c

/-- Roman-numeral letter class `[IVXLCDM]`. -/
def isRomanB (c : Char) : Bool :=
  c = 'I' ∨ c = 'V' ∨ c = 'X' ∨ c = 'L' ∨ c = 'C' ∨ c = 'D' ∨ c = 'M'

/-- Consume one-or-more characters satisfying `p` (regex `p+`), returning
the remainder, or fail if the first character does not satisfy `p`. -/
def dropWhile1 (p : Char → Bool) : List Char → Option (List Char)
  | [] => none
  | c :: r => if p c then some (r.dropWhile p) else none

/-- Case-insensitively consume the literal keyword `pat` (given in
lowercase), returning the remainder. -/
def dropPrefixCI : List Char → List Char → Option (List Char)
  | [], l => some l
  | _ :: _, [] => none
  | p :: ps, c :: cs => if c.toLower = p then dropPrefixCI ps cs else none

/-- `^(kw\s+\d+[:\s]*(.*))/i` for `kw` ∈ chapter/part/section; returns
group 2. -/
def matchKwNum (kw : List Char) (l : List Char) : Option (List Char) :=
  (dropPrefixCI kw l).bind fun l1 =>
    (dropWhile1 isWsB l1).bind fun l2 =>
      (dropWhile1 Char.isDigit l2).map fun l3 =>
        l3.dropWhile isColonWsB

/-- `^(\d+\.\s+([A-Z].*))`; returns group 2. -/
def matchNumbered (l : List Char) : Option (List Char) :=
  (dropWhile1 Char.isDigit l).bind fun l1 =>
    match l1 with
    | '.' :: r =>
      (dropWhile1 isWsB r).bind fun l2 =>
        match l2 with
        | c :: _ => if c.isUpper then some l2 else none
        | [] => none
    | _ => none

/-- `^(\d+\.\d+\s+(.*))`; returns group 2. -/
def matchSubNumbered (l : List Char) : Option (List Char) :=
  (dropWhile1 Char.isDigit l).bind fun l1 =>
    match l1 with
    | '.' :: r =>
      (dropWhile1 Char.isDigit r).bind fun l2 =>
        dropWhile1 isWsB l2
    | _ => none

/-- `^([IVXLCDM]+\.\s+(.*))`; returns group 2. -/
def matchRoman (l : List Char) : Option (List Char) :=
  (dropWhile1 isRomanB l).bind fun l1 =>
    match l1 with
    | '.' :: r => dropWhile1 isWsB r
    | _ => none

/-- The four markdown patterns `^(#{k}\s+(.*))` (k = 1, 2, 3, ≥ 4), whose
first match is determined by the number of leading hashes; returns group 2
and the pattern's level. -/
def matchHash (l : List Char) : Option (List Char × Nat) :=
  let n := (l.takeWhile (· = '#')).length
  if n = 0 then none
  else
    (dropWhile1 isWsB (l.dropWhile (· = '#'))).map fun rest =>
      (rest, if n = 1 then 1 else if n = 2 then 2 else if n = 3 then 3 else 4)

/-- `^([A-Z][A-Z\s]{10,}[A-Z])$` (all-caps header, no inner group). -/
def matchAllCapsB (l : List Char) : Bool :=
  decide (12 ≤ l.length) &&
    (match l.head? with | some c => c.isUpper | none => false) &&
    (match l.getLast? with | some c => c.isUpper | none => false) &&
    ((l.drop 1).dropLast.all fun c => c.isUpper || isWsB c)

/-- JS `match[2] || match[1]`: an empty (or missing) group-2 capture falls
back to the whole match, which for these anchored patterns is the whole
trimmed line. -/
def jsOrStr (g2 : Option (List Char)) (whole : List Char) : List Char :=
  match g2 with
  | some s => if s = [] then whole else s
  | none => whole

/-- `replace(/^#+\s*/, '')` on the extracted title. -/
def stripHashPrefix (l : List Char) : List Char :=
  match l with
  | '#' :: _ => (l.dropWhile (· = '#')).dropWhile isWsB
  | _ => l

/-- Test the ordered pattern list on a trimmed line; first match wins.
Returns the raw group-2 capture (`none` when the pattern has no inner
group) and the pattern's level. -/
def lineCandidates (t : List Char) : Option (Option (List Char) × Nat) :=
  ((matchKwNum "chapter".toList t).map fun g2 => (some g2, 1)) <|>
  ((matchKwNum "part".toList t).map fun g2 => (some g2, 0)) <|>
  ((matchKwNum "section".toList t).map fun g2 => (some g2, 2)) <|>
  ((matchNumbered t).map fun g2 => (some g2, 2)) <|>
  ((matchSubNumbered t).map fun g2 => (some g2, 3)) <|>
  ((matchRoman t).map fun g2 => (some g2, 1)) <|>
  ((matchHash t).map fun p => (some p.1, p.2)) <|>
  (if matchAllCapsB t then some (none, 2) else none)

/-- Heading detection for one line: title text and level. -/
def detectLine (t : List Char) : Option (List Char × Nat) :=
  (lineCandidates t).map fun p =>
    (stripHashPrefix (trim (jsOrStr p.1 t)), p.2)

/-- `text.split('\n')`. -/
def splitLines : List Char → List (List Char)
  | [] => [[]]
  | c :: rest =>
    if c = '\n' then [] :: splitLines rest
    else
      match splitLines rest with
      | [] => [[c]]
      | l :: ls => (c :: l) :: ls

theorem splitLines_ne_nil (l : List Char) : splitLines l ≠ [] := by
  cases l with
  | nil => simp [splitLines]
  | cons c rest =>
    rw [splitLines]
    by_cases hc : c = '\n'
    · simp [hc]
    · rw [if_neg hc]
      cases splitLines rest <;> simp

theorem splitLines_length_sum (l : List Char) :
    ((splitLines l).map (fun s => s.length + 1)).sum = l.length + 1 := by
  induction l with
  | nil => simp [splitLines]
  | cons c rest ih =>
    rw [splitLines]
    by_cases hc : c = '\n'
    · rw [if_pos hc]
      simp only [List.map_cons, List.sum_cons, List.length_cons, List.length_nil]
      rw [ih]
      omega
    · rw [if_neg hc]
      cases hs : splitLines rest with
      | nil => exact absurd hs (splitLines_ne_nil rest)
      | cons hd tl =>
        rw [hs] at ih
        simp only [List.map_cons, List.sum_cons, List.length_cons] at ih ⊢
        omega

/-- Result of `detectStructure`: boundary offsets with per-offset titles
and levels (the JS `Map`s become association lists). -/
structure DetectedStructure where
  boundaries : List Nat
  titles : List (Nat × List Char)
  levels : List (Nat × Nat)
deriving DecidableEq

/-- The line scan of `detectStructure`: walk the lines keeping a running
character offset, record each heading line's offset, title and level. -/
def detectAux : List (List Char) → Nat →
    List Nat × List (Nat × List Char) × List (Nat × Nat)
  | [], _ => ([], [], [])
  | line :: ls, idx =>
    let r := detectAux ls (idx + line.length + 1)
    match detectLine (trim line) with
    | some (title, lvl) => (idx :: r.1, (idx, title) :: r.2.1, (idx, lvl) :: r.2.2)
    | none => r

/-- `[...new Set(boundaries)].sort((a, b) => a - b)`. -/
def sortDedup (bs : List Nat) : List Nat :=
  List.insertionSort (· ≤ ·) bs.dedup

/-- `detectStructure` from `hierarchical-chunker.ts`. -/
def detectStructure (text : List Char) : DetectedStructure :=
  let r := detectAux (splitLines text) 0
  ⟨sortDedup (0 :: r.1), r.2.1, r.2.2⟩

theorem detectAux_bounds : ∀ (ls : List (List Char)) (idx : Nat),
    ∀ b ∈ (detectAux ls idx).1, b + 1 ≤ idx + (ls.map (fun s => s.length + 1)).sum := by
  intro ls
  induction ls with
  | nil => intro idx b hb; simp [detectAux] at hb
  | cons line rest ih =>
    intro idx b hb
    rw [detectAux] at hb
    simp only [List.map_cons, List.sum_cons]
    cases hd : detectLine (trim line) with
    | some p =>
      rw [hd] at hb
      rcases List.mem_cons.mp hb with h1 | h2
      · omega
      · have := ih (idx + line.length + 1) b h2
        omega
    | none =>
      rw [hd] at hb
      have := ih (idx + line.length + 1) b hb
      omega

theorem detectStructure_boundary_le (text : List Char) :
    ∀ b ∈ (detectStructure text).boundaries, b ≤ text.length := by
  intro b hb
  simp only [detectStructure, sortDedup] at hb
  have hmem : b ∈ (0 :: (detectAux (splitLines text) 0).1) := by
    have h1 := (List.perm_insertionSort (· ≤ ·)
      (0 :: (detectAux (splitLines text) 0).1).dedup).mem_iff.mp hb
    exact (List.mem_dedup).mp h1
  rcases List.mem_cons.mp hmem with h0 | hp
  · omega
  · have := detectAux_bounds (splitLines text) 0 b hp
    rw [splitLines_length_sum] at this
    omega

theorem detectStructure_boundaries_sorted (text : List Char) :
    (detectStructure text).boundaries.Pairwise (· < ·) := by
  simp only [detectStructure, sortDedup]
  set l := (0 :: (detectAux (splitLines text) 0).1).dedup with hl
  have hsort : (List.insertionSort (· ≤ ·) l).Pairwise (· ≤ ·) :=
    List.sorted_insertionSort (· ≤ ·) l
  have hnd : (List.insertionSort (· ≤ ·) l).Nodup :=
    (List.perm_insertionSort (· ≤ ·) l).symm.nodup (List.nodup_dedup _)
  exact (hsort.and hnd).imp fun h => lt_of_le_of_ne h.1 h.2

/-! ## Document segmentation (`segmentDocument`) -/

/-- `Omit<DocumentSegment, 'id' | 'createdAt'>` as produced by the
segmenter. -/
structure Seg where
  sourceId : List Char
  segmentIndex : Nat
  startIndex : Nat
  endIndex : Nat
  sectionTitle : Option (List Char)
  level : Nat
  estimatedTokens : Nat
  text : List Char
deriving DecidableEq

/-- `SegmentOptions`, with all fields resolved against `DEFAULT_OPTIONS`
(the JS spread `{ ...DEFAULT_OPTIONS, ...options }`). -/
structure SegmentOptions where
  maxTokensPerSegment : Nat
  respectSectionBoundaries : Bool
  overlapTokens : Nat
deriving DecidableEq

/-- `DEFAULT_OPTIONS`: `DEFAULT_SUMMARIZATION_CONFIG.maxSegmentTokens =
15000`, boundary-respecting, 100 overlap tokens (unused). -/
def DEFAULT_OPTIONS : SegmentOptions :=
  { maxTokensPerSegment := 15000, respectSectionBoundaries := true, overlapTokens := 100 }

/-- Loop state of `segmentBySize`. -/
structure SizeState where
  segs : List Seg
  idx : Nat
  cur : List Char
  curStart : Nat

/-- One iteration of the paragraph-packing loop of `segmentBySize`. -/
def sizeStep (sourceId : List Char) (maxChars off : Nat) (st : SizeState)
    (para : List Char) : SizeState :=
  let pwb := para ++ ['\n', '\n']
  if maxChars < st.cur.length + pwb.length ∧ st.cur ≠ [] then
    let t := trim st.cur
    { segs := st.segs ++ [⟨sourceId, st.idx, off + st.curStart,
        off + st.curStart + t.length, none, 0, estimateTokens t, t⟩],
      idx := st.idx + 1,
      cur := pwb,
      curStart := st.curStart + st.cur.length }
  else
    { st with cur := st.cur ++ pwb }

/-- `segmentBySize`: greedy paragraph packing against the character budget
`tokensToChars(maxTokensPerSegment)`. -/
def segmentBySize (text sourceId : List Char) (opts : SegmentOptions)
    (startIndex off : Nat) : List Seg :=
  let maxChars := tokensToChars opts.maxTokensPerSegment
  let st := (splitParas text).foldl (sizeStep sourceId maxChars off)
    ⟨[], startIndex, [], 0⟩
  if trim st.cur ≠ [] then
    st.segs ++ [⟨sourceId, st.idx, off + st.curStart,
      off + st.curStart + (trim st.cur).length, none, 0,
      estimateTokens (trim st.cur), trim st.cur⟩]
  else
    st.segs

/-- JS `a || b` on optional strings: empty or missing falls through. -/
def jsOrOpt (a b : Option (List Char)) : Option (List Char) :=
  match a with
  | some t => if t = [] then b else some t
  | none => b

/-- Loop state of `segmentBySections`. -/
structure SectState where
  segs : List Seg
  idx : Nat
  pending : List Char
  pendingStart : Nat
  pendingTitle : Option (List Char)
  pendingLevel : Nat

/-- `boundaries[i + 1] || text.length`: the next boundary, with JS
falsiness sending both a missing and a zero next boundary to the document
length. -/
def sectionEnd (textLen : Nat) (rest : List Nat) : Nat :=
  match rest with
  | [] => textLen
  | b2 :: _ => if b2 = 0 then textLen else b2

/-- The boundary walk of `segmentBySections`: merge small sections into a
pending buffer, size-split oversized ones. -/
def sectionsLoop (text sourceId : List Char) (ds : DetectedStructure)
    (opts : SegmentOptions) : List Nat → SectState → SectState
  | [], st => st
  | b :: rest, st =>
    let e := sectionEnd text.length rest
    let sectionText := (text.drop b).take (e - b)
    let sectionTokens := estimateTokens sectionText
    let sectionTitle := ds.titles.lookup b
    let sectionLevel := (ds.levels.lookup b).getD 0
    if opts.maxTokensPerSegment < sectionTokens then
      -- Oversized section: flush any pending buffer, then size-split it,
      -- tagging sub-segments with the section's title and level.
      let st1 := if st.pending ≠ [] then
        { st with
          segs := st.segs ++ [⟨sourceId, st.idx, st.pendingStart, b,
            st.pendingTitle, st.pendingLevel, estimateTokens st.pending,
            st.pending⟩],
          idx := st.idx + 1,
          pending := [] }
      else st
      let subs := segmentBySize sectionText sourceId opts st1.idx b
      let subs' := subs.map fun s =>
        { s with sectionTitle := jsOrOpt s.sectionTitle sectionTitle,
                 level := max s.level sectionLevel }
      sectionsLoop text sourceId ds opts rest
        { st1 with segs := st1.segs ++ subs', idx := st1.idx + subs.length }
    else
      let combined := estimateTokens (st.pending ++ sectionText)
      if opts.maxTokensPerSegment < combined ∧ st.pending ≠ [] then
        sectionsLoop text sourceId ds opts rest
          { segs := st.segs ++ [⟨sourceId, st.idx, st.pendingStart, b,
              st.pendingTitle, st.pendingLevel, estimateTokens st.pending,
              st.pending⟩],
            idx := st.idx + 1,
            pending := sectionText,
            pendingStart := b,
            pendingTitle := sectionTitle,
            pendingLevel := sectionLevel }
      else
        if st.pending = [] then
          sectionsLoop text sourceId ds opts rest
            { st with pending := sectionText, pendingStart := b,
                      pendingTitle := sectionTitle, pendingLevel := sectionLevel }
        else
          sectionsLoop text sourceId ds opts rest
            { st with pending := st.pending ++ sectionText }

/-- `segmentBySections`: run the boundary walk and flush the remaining
pending buffer (its `endIndex` is the document length). -/
def segmentBySections (text sourceId : List Char) (ds : DetectedStructure)
    (opts : SegmentOptions) : List Seg :=
  let st := sectionsLoop text sourceId ds opts ds.boundaries
    ⟨[], 0, [], 0, none, 0⟩
  if st.pending ≠ [] then
    st.segs ++ [⟨sourceId, st.idx, st.pendingStart, text.length,
      st.pendingTitle, st.pendingLevel, estimateTokens st.pending, st.pending⟩]
  else
    st.segs

/-- `segmentDocument` from `hierarchical-chunker.ts`. -/
def segmentDocument (text sourceId : List Char) (opts : SegmentOptions) :
    List Seg :=
  if trim text = [] then []
  else
    let ds := detectStructure text
    let totalTokens := estimateTokens text
    if totalTokens ≤ opts.maxTokensPerSegment then
      [⟨sourceId, 0, 0, text.length, jsOrOpt (ds.titles.lookup 0) none,
        (ds.levels.lookup 0).getD 0, totalTokens, text⟩]
    else if opts.respectSectionBoundaries ∧ 1 < ds.boundaries.length then
      segmentBySections text sourceId ds opts
    else
      segmentBySize text sourceId opts 0 0

/-! ## Segmenter invariants -/

/-- Ordering relation between consecutive segments: the earlier segment
ends at or before the later one starts. -/
def segR (a b : Seg) : Prop := a.endIndex ≤ b.startIndex

instance (a b : Seg) : Decidable (segR a b) := by unfold segR; infer_instance

/-- Budget disjunction: within the token budget, within the character
budget used by size-splitting, or a single atomic paragraph. -/
def BudgetOk (maxT : Nat) (s : Seg) : Prop :=
  s.estimatedTokens ≤ maxT ∨ s.text.length ≤ tokensToChars maxT ∨ noDD s.text

/-- Invariant of the `segmentBySize` packing loop. -/
def SizeInv (off maxChars : Nat) (st : SizeState) : Prop :=
  List.Chain' segR st.segs ∧
  (∀ s ∈ st.segs, off ≤ s.startIndex ∧ s.startIndex ≤ s.endIndex) ∧
  (∀ x ∈ st.segs.getLast?, x.endIndex ≤ off + st.curStart) ∧
  (∀ s ∈ st.segs, s.endIndex + 2 ≤ off + st.curStart + st.cur.length) ∧
  (st.cur = [] ∨ ∃ w, st.cur = w ++ ['\n', '\n']) ∧
  (st.cur.length ≤ maxChars ∨ ∃ p, noDD p ∧ st.cur = p ++ ['\n', '\n']) ∧
  (∀ s ∈ st.segs, s.text.length ≤ maxChars ∨ noDD s.text)

theorem trim_length_le_sub_two {cur : List Char}
    (h : cur = [] ∨ ∃ w, cur = w ++ ['\n', '\n']) (hne : cur ≠ []) :
    (trim cur).length + 2 ≤ cur.length := by
  rcases h with h | ⟨w, hw⟩
  · exact absurd h hne
  · subst hw
    have := trim_append_nn_length w
    simp only [List.length_append, List.length_cons, List.length_nil]
    omega

theorem sizeStep_inv {sid para : List Char} {off maxChars : Nat} {st : SizeState}
    (hpara : noDD para) (h : SizeInv off maxChars st) :
    SizeInv off maxChars (sizeStep sid maxChars off st para) := by
  obtain ⟨hchain, hse, hlast, hend2, hnn, hbudcur, hbudsegs⟩ := h
  rw [sizeStep]
  by_cases hcond : maxChars < st.cur.length + (para ++ ['\n', '\n']).length ∧ st.cur ≠ []
  · rw [if_pos hcond]
    have htrim2 := trim_length_le_sub_two hnn hcond.2
    refine ⟨?_, ?_, ?_, ?_, ?_, ?_, ?_⟩
    · rw [List.chain'_append]
      refine ⟨hchain, List.chain'_singleton _, ?_⟩
      intro x hx y hy
      simp only [List.head?_cons, Option.mem_def, Option.some.injEq] at hy
      subst hy
      exact hlast x hx
    · intro s hs
      rcases List.mem_append.mp hs with h1 | h2
      · exact hse s h1
      · simp only [List.mem_singleton] at h2
        subst h2
        simp only
        omega
    · intro x hx
      rw [List.getLast?_concat] at hx
      simp only [Option.mem_def, Option.some.injEq] at hx
      subst hx
      simp only
      omega
    · intro s hs
      simp only [List.length_append, List.length_cons, List.length_nil]
      rcases List.mem_append.mp hs with h1 | h2
      · have := hend2 s h1
        omega
      · simp only [List.mem_singleton] at h2
        subst h2
        simp only
        omega
    · right; exact ⟨para, rfl⟩
    · right; exact ⟨para, hpara, rfl⟩
    · intro s hs
      rcases List.mem_append.mp hs with h1 | h2
      · exact hbudsegs s h1
      · simp only [List.mem_singleton] at h2
        subst h2
        simp only
        rcases hbudcur with hb | ⟨p, hp, hpe⟩
        · left
          have := trim_length_le st.cur
          omega
        · right
          rw [hpe]
          exact trim_append_nn_noDD hp
  · rw [if_neg hcond]
    refine ⟨hchain, hse, hlast, ?_, ?_, ?_, hbudsegs⟩
    · intro s hs
      have := hend2 s hs
      simp only [List.length_append]
      omega
    · right
      rcases hnn with hc | ⟨w, hw⟩
      · exact ⟨para, by rw [hc]; simp⟩
      · exact ⟨st.cur ++ para, by simp⟩
    · by_cases hc : st.cur = []
      · right
        exact ⟨para, hpara, by rw [hc]; simp⟩
      · left
        have hlen : st.cur.length + (para ++ ['\n', '\n']).length ≤ maxChars := by
          by_contra hcon
          exact hcond ⟨by omega, hc⟩
        simp only [List.length_append] at hlen ⊢
        omega

theorem foldl_sizeStep_inv {sid : List Char} {off maxChars : Nat} :
    ∀ (ps : List (List Char)) (st : SizeState), (∀ p ∈ ps, noDD p) →
    SizeInv off maxChars st →
    SizeInv off maxChars (ps.foldl (sizeStep sid maxChars off) st) := by
  intro ps
  induction ps with
  | nil => intro st _ h; exact h
  | cons p rest ih =>
    intro st hnn h
    rw [List.foldl_cons]
    exact ih _ (fun q hq => hnn q (by simp [hq]))
      (sizeStep_inv (hnn p (by simp)) h)

theorem sizeStep_V {sid para : List Char} {off maxChars : Nat} (st : SizeState) :
    (sizeStep sid maxChars off st para).curStart +
      (sizeStep sid maxChars off st para).cur.length =
    st.curStart + st.cur.length + (para.length + 2) := by
  rw [sizeStep]
  by_cases hcond : maxChars < st.cur.length + (para ++ ['\n', '\n']).length ∧ st.cur ≠ []
  · rw [if_pos hcond]
    simp only [List.length_append, List.length_cons, List.length_nil]
    try omega
  · rw [if_neg hcond]
    simp only [List.length_append, List.length_cons, List.length_nil]
    try omega

theorem foldl_sizeStep_V {sid : List Char} {off maxChars : Nat} :
    ∀ (ps : List (List Char)) (st : SizeState),
    (ps.foldl (sizeStep sid maxChars off) st).curStart +
      (ps.foldl (sizeStep sid maxChars off) st).cur.length =
    st.curStart + st.cur.length + (ps.map (fun p => p.length + 2)).sum := by
  intro ps
  induction ps with
  | nil => intro st; simp
  | cons p rest ih =>
    intro st
    rw [List.foldl_cons, ih, sizeStep_V]
    simp only [List.map_cons, List.sum_cons]
    omega

/-- Specification of `segmentBySize`: ordered, contiguous, confined to
`[off, off + text.length]`, and every produced segment is within the
character budget or is a single atomic paragraph. -/
theorem segmentBySize_spec (text sid : List Char) (opts : SegmentOptions)
    (startIdx off : Nat) :
    List.Chain' segR (segmentBySize text sid opts startIdx off) ∧
    (∀ s ∈ segmentBySize text sid opts startIdx off,
      off ≤ s.startIndex ∧ s.startIndex ≤ s.endIndex ∧
      s.endIndex ≤ off + text.length) ∧
    (∀ s ∈ segmentBySize text sid opts startIdx off,
      s.text.length ≤ tokensToChars opts.maxTokensPerSegment ∨ noDD s.text) := by
  set maxChars := tokensToChars opts.maxTokensPerSegment with hmc
  set st := (splitParas text).foldl (sizeStep sid maxChars off)
    ⟨[], startIdx, [], 0⟩ with hst
  have hinv : SizeInv off maxChars st := by
    rw [hst]
    refine foldl_sizeStep_inv _ _ (splitParas_noDD text) ?_
    exact ⟨List.chain'_nil, by simp, by simp, by simp, Or.inl rfl,
      Or.inl (by simp), by simp⟩
  have hV : st.curStart + st.cur.length ≤ text.length + 2 := by
    rw [hst, foldl_sizeStep_V]
    have := splitParas_length_sum text
    simpa using this
  obtain ⟨hchain, hse, hlast, hend2, hnn, hbudcur, hbudsegs⟩ := hinv
  have hout : segmentBySize text sid opts startIdx off =
      (if trim st.cur ≠ [] then
        st.segs ++ [⟨sid, st.idx, off + st.curStart,
          off + st.curStart + (trim st.cur).length, none, 0,
          estimateTokens (trim st.cur), trim st.cur⟩]
      else st.segs) := by
    rw [segmentBySize, ← hmc, ← hst]
  rw [hout]
  by_cases hfin : trim st.cur ≠ []
  · rw [if_pos hfin]
    have hcurne : st.cur ≠ [] := by
      intro hc
      rw [hc] at hfin
      exact hfin (by rfl)
    have htrim2 := trim_length_le_sub_two hnn hcurne
    refine ⟨?_, ?_, ?_⟩
    · rw [List.chain'_append]
      refine ⟨hchain, List.chain'_singleton _, ?_⟩
      intro x hx y hy
      simp only [List.head?_cons, Option.mem_def, Option.some.injEq] at hy
      subst hy
      exact hlast x hx
    · intro s hs
      rcases List.mem_append.mp hs with h1 | h2
      · obtain ⟨ha, hb⟩ := hse s h1
        have := hend2 s h1
        exact ⟨ha, hb, by omega⟩
      · simp only [List.mem_singleton] at h2
        subst h2
        simp only
        omega
    · intro s hs
      rcases List.mem_append.mp hs with h1 | h2
      · exact hbudsegs s h1
      · simp only [List.mem_singleton] at h2
        subst h2
        simp only
        rcases hbudcur with hb | ⟨p, hp, hpe⟩
        · left
          have := trim_length_le st.cur
          omega
        · right
          rw [hpe]
          exact trim_append_nn_noDD hp
  · rw [if_neg hfin]
    refine ⟨hchain, ?_, hbudsegs⟩
    intro s hs
    obtain ⟨ha, hb⟩ := hse s hs
    have := hend2 s hs
    exact ⟨ha, hb, by omega⟩

/-- Last emitted segment (if any) ends at or before `n`. -/
def lastEndLe (segs : List Seg) (n : Nat) : Prop :=
  ∀ x ∈ segs.getLast?, x.endIndex ≤ n

/-- Head boundary of the remaining walk, or the document length. -/
def hbOf (textLen : Nat) (bs : List Nat) : Nat := (bs.head?).getD textLen

theorem lastEndLe_mono {segs : List Seg} {m n : Nat} (h : lastEndLe segs m)
    (hmn : m ≤ n) : lastEndLe segs n := fun x hx => le_trans (h x hx) hmn

theorem lastEndLe_concat {segs : List Seg} {s : Seg} {n : Nat}
    (h : s.endIndex ≤ n) : lastEndLe (segs ++ [s]) n := by
  intro x hx
  rw [List.getLast?_concat] at hx
  simp only [Option.mem_def, Option.some.injEq] at hx
  subst hx
  exact h

theorem chain'_concat_of_lastEndLe {segs : List Seg} {s : Seg}
    (hchain : List.Chain' segR segs) (h : lastEndLe segs s.startIndex) :
    List.Chain' segR (segs ++ [s]) := by
  rw [List.chain'_append]
  refine ⟨hchain, List.chain'_singleton _, ?_⟩
  intro x hx y hy
  simp only [List.head?_cons, Option.mem_def, Option.some.injEq] at hy
  subst hy
  exact h x hx

theorem sectionsLoop_spec (text sid : List Char) (ds : DetectedStructure)
    (opts : SegmentOptions) :
    ∀ (bs : List Nat) (st : SectState),
    bs.Pairwise (· < ·) →
    (∀ b ∈ bs, b ≤ text.length) →
    List.Chain' segR st.segs →
    (∀ s ∈ st.segs, s.startIndex ≤ s.endIndex ∧ s.endIndex ≤ text.length) →
    (∀ s ∈ st.segs, BudgetOk opts.maxTokensPerSegment s) →
    lastEndLe st.segs
      (if st.pending = [] then hbOf text.length bs else st.pendingStart) →
    (st.pending ≠ [] → st.pendingStart ≤ hbOf text.length bs ∧
      estimateTokens st.pending ≤ opts.maxTokensPerSegment) →
    List.Chain' segR (sectionsLoop text sid ds opts bs st).segs ∧
    (∀ s ∈ (sectionsLoop text sid ds opts bs st).segs,
      s.startIndex ≤ s.endIndex ∧ s.endIndex ≤ text.length) ∧
    (∀ s ∈ (sectionsLoop text sid ds opts bs st).segs,
      BudgetOk opts.maxTokensPerSegment s) ∧
    lastEndLe (sectionsLoop text sid ds opts bs st).segs
      (if (sectionsLoop text sid ds opts bs st).pending = [] then text.length
       else (sectionsLoop text sid ds opts bs st).pendingStart) ∧
    ((sectionsLoop text sid ds opts bs st).pending ≠ [] →
      (sectionsLoop text sid ds opts bs st).pendingStart ≤ text.length ∧
      estimateTokens (sectionsLoop text sid ds opts bs st).pending ≤
        opts.maxTokensPerSegment) := by
  intro bs
  induction bs with
  | nil =>
    intro st _ _ hchain hbounds hbud hlast hpend
    rw [sectionsLoop]
    exact ⟨hchain, hbounds, hbud, hlast, hpend⟩
  | cons b rest ih =>
    intro st hpw hble hchain hbounds hbud hlast hpend
    obtain ⟨hpw1, hpw2⟩ := List.pairwise_cons.mp hpw
    have hbtext : b ≤ text.length := hble b (by simp)
    have hbhb : b ≤ hbOf text.length rest := by
      cases rest with
      | nil => exact hbtext
      | cons b2 r2 =>
        have := hpw1 b2 (by simp)
        simp only [hbOf, List.head?_cons, Option.getD_some]
        omega
    have heFacts : b ≤ sectionEnd text.length rest ∧
        sectionEnd text.length rest ≤ text.length ∧
        sectionEnd text.length rest ≤ hbOf text.length rest := by
      cases rest with
      | nil =>
        refine ⟨hbtext, le_refl _, ?_⟩
        simp [hbOf, sectionEnd]
      | cons b2 r2 =>
        have hb2 : b < b2 := hpw1 b2 (by simp)
        have hb2t : b2 ≤ text.length := hble b2 (by simp)
        simp only [sectionEnd, hbOf, List.head?_cons, Option.getD_some]
        rw [if_neg (by omega)]
        omega
    simp only [sectionsLoop]
    set e := sectionEnd text.length rest with hee
    obtain ⟨hbe, het, hehb⟩ := heFacts
    set secText := (text.drop b).take (e - b) with hsec
    have hsecLen : b + secText.length ≤ e ∧ b + secText.length ≤ text.length := by
      rw [hsec]
      simp only [List.length_take, List.length_drop]
      omega
    set secTitle := ds.titles.lookup b with hsectitle
    set secLevel := (ds.levels.lookup b).getD 0 with hseclevel
    by_cases hover : opts.maxTokensPerSegment < estimateTokens secText
    · rw [if_pos hover]
      -- oversized section: flush pending, size-split the section
      set st1 := (if st.pending ≠ [] then
        { st with
          segs := st.segs ++ [⟨sid, st.idx, st.pendingStart, b,
            st.pendingTitle, st.pendingLevel, estimateTokens st.pending,
            st.pending⟩],
          idx := st.idx + 1,
          pending := ([] : List Char) }
      else st) with hst1
      have hst1segs : List.Chain' segR st1.segs ∧
          (∀ s ∈ st1.segs, s.startIndex ≤ s.endIndex ∧ s.endIndex ≤ text.length) ∧
          (∀ s ∈ st1.segs, BudgetOk opts.maxTokensPerSegment s) ∧
          lastEndLe st1.segs b ∧ st1.pending = [] ∧ st1.idx = st1.idx := by
        rw [hst1]
        by_cases hp : st.pending ≠ []
        · rw [if_pos hp]
          obtain ⟨hps, hpe⟩ := hpend hp
          rw [if_neg hp] at hlast
          simp only [hbOf, List.head?_cons, Option.getD_some] at hps hlast
          refine ⟨chain'_concat_of_lastEndLe hchain hlast, ?_, ?_, ?_, rfl, rfl⟩
          · intro s hs
            rcases List.mem_append.mp hs with h1 | h2
            · exact hbounds s h1
            · simp only [List.mem_singleton] at h2
              subst h2
              exact ⟨hps, hbtext⟩
          · intro s hs
            rcases List.mem_append.mp hs with h1 | h2
            · exact hbud s h1
            · simp only [List.mem_singleton] at h2
              subst h2
              exact Or.inl hpe
          · exact lastEndLe_concat (le_refl b)
        · rw [if_neg hp]
          push_neg at hp
          rw [if_pos hp] at hlast
          simp only [hbOf, List.head?_cons, Option.getD_some] at hlast
          exact ⟨hchain, hbounds, hbud, hlast, hp, rfl⟩
      obtain ⟨hc1, hb1, hg1, hl1, hp1, _⟩ := hst1segs
      obtain ⟨hsubC, hsubB, hsubG⟩ := segmentBySize_spec secText sid opts st1.idx b
      set subs := segmentBySize secText sid opts st1.idx b with hsubs
      set subs' := subs.map (fun s =>
        { s with sectionTitle := jsOrOpt s.sectionTitle secTitle,
                 level := max s.level secLevel }) with hsubs'
      have hsubB' : ∀ s ∈ subs', b ≤ s.startIndex ∧ s.startIndex ≤ s.endIndex ∧
          s.endIndex ≤ text.length ∧ s.endIndex ≤ hbOf text.length rest := by
        intro s' hs'
        obtain ⟨s, hs, hfs⟩ := List.mem_map.mp hs'
        obtain ⟨ha, hb', hc'⟩ := hsubB s hs
        subst hfs
        simp only
        omega
      have hsubG' : ∀ s ∈ subs', BudgetOk opts.maxTokensPerSegment s := by
        intro s' hs'
        obtain ⟨s, hs, hfs⟩ := List.mem_map.mp hs'
        have := hsubG s hs
        subst hfs
        rcases this with h1 | h2
        · exact Or.inr (Or.inl h1)
        · exact Or.inr (Or.inr h2)
      have hsubC' : List.Chain' segR subs' := by
        rw [hsubs', List.chain'_map]
        exact hsubC
      have hnewchain : List.Chain' segR (st1.segs ++ subs') := by
        rw [List.chain'_append]
        refine ⟨hc1, hsubC', ?_⟩
        intro x hx y hy
        have hy' : y ∈ subs' := List.mem_of_mem_head? hy
        exact le_trans (hl1 x hx) (hsubB' y hy').1
      have hnewlast : lastEndLe (st1.segs ++ subs') (hbOf text.length rest) := by
        by_cases hsn : subs' = []
        · rw [hsn, List.append_nil]
          exact lastEndLe_mono hl1 hbhb
        · intro x hx
          rw [List.getLast?_append_of_ne_nil _ hsn] at hx
          have hx' : x ∈ subs' := List.mem_of_mem_getLast? hx
          exact (hsubB' x hx').2.2.2
      refine ih _ hpw2 (fun q hq => hble q (by simp [hq])) hnewchain ?_ ?_ ?_ ?_
      · intro s hs
        rcases List.mem_append.mp hs with h1 | h2
        · exact hb1 s h1
        · obtain ⟨_, h2', h3', _⟩ := hsubB' s h2
          exact ⟨h2', h3'⟩
      · intro s hs
        rcases List.mem_append.mp hs with h1 | h2
        · exact hg1 s h1
        · exact hsubG' s h2
      · split
        · exact hnewlast
        · rename_i hcond
          exact absurd hp1 hcond
      · intro hc
        exact absurd hp1 hc
    · rw [if_neg hover]
      push_neg at hover
      by_cases hcomb : opts.maxTokensPerSegment <
          estimateTokens (st.pending ++ secText) ∧ st.pending ≠ []
      · rw [if_pos hcomb]
        obtain ⟨hps, hpe⟩ := hpend hcomb.2
        rw [if_neg hcomb.2] at hlast
        simp only [hbOf, List.head?_cons, Option.getD_some] at hps hlast
        refine ih _ hpw2 (fun q hq => hble q (by simp [hq])) ?_ ?_ ?_ ?_ ?_
        · exact chain'_concat_of_lastEndLe hchain hlast
        · intro s hs
          rcases List.mem_append.mp hs with h1 | h2
          · exact hbounds s h1
          · simp only [List.mem_singleton] at h2
            subst h2
            exact ⟨hps, hbtext⟩
        · intro s hs
          rcases List.mem_append.mp hs with h1 | h2
          · exact hbud s h1
          · simp only [List.mem_singleton] at h2
            subst h2
            exact Or.inl hpe
        · refine lastEndLe_mono (lastEndLe_concat (le_refl b)) ?_
          split
          · exact hbhb
          · exact le_refl b
        · intro _
          exact ⟨hbhb, hover⟩
      · rw [if_neg hcomb]
        by_cases hpempty : st.pending = []
        · rw [if_pos hpempty]
          rw [if_pos hpempty] at hlast
          simp only [hbOf, List.head?_cons, Option.getD_some] at hlast
          refine ih _ hpw2 (fun q hq => hble q (by simp [hq])) hchain hbounds hbud ?_ ?_
          · refine lastEndLe_mono hlast ?_
            split
            · exact hbhb
            · exact le_refl b
          · intro _
            exact ⟨hbhb, hover⟩
        · rw [if_neg hpempty]
          have hpne : st.pending ≠ [] := hpempty
          obtain ⟨hps, _⟩ := hpend hpne
          rw [if_neg hpne] at hlast
          simp only [hbOf, List.head?_cons, Option.getD_some] at hps
          have hcomble : estimateTokens (st.pending ++ secText) ≤
              opts.maxTokensPerSegment := by
            by_contra hcon
            exact hcomb ⟨by omega, hpne⟩
          refine ih _ hpw2 (fun q hq => hble q (by simp [hq])) hchain hbounds hbud ?_ ?_
          · refine lastEndLe_mono hlast ?_
            split
            · exact le_trans hps hbhb
            · exact le_refl _
          · intro _
            exact ⟨le_trans hps hbhb, hcomble⟩

theorem segmentBySections_spec (text sid : List Char) (ds : DetectedStructure)
    (opts : SegmentOptions) (hpw : ds.boundaries.Pairwise (· < ·))
    (hble : ∀ b ∈ ds.boundaries, b ≤ text.length) :
    List.Chain' segR (segmentBySections text sid ds opts) ∧
    (∀ s ∈ segmentBySections text sid ds opts,
      s.startIndex ≤ s.endIndex ∧ s.endIndex ≤ text.length) ∧
    (∀ s ∈ segmentBySections text sid ds opts,
      BudgetOk opts.maxTokensPerSegment s) := by
  obtain ⟨hc, hb, hg, hl, hp⟩ := sectionsLoop_spec text sid ds opts ds.boundaries
    ⟨[], 0, [], 0, none, 0⟩ hpw hble List.chain'_nil (by simp) (by simp)
    (by intro x hx; simp at hx) (fun hcon => absurd rfl hcon)
  rw [segmentBySections]
  set st := sectionsLoop text sid ds opts ds.boundaries ⟨[], 0, [], 0, none, 0⟩
    with hst
  by_cases hpending : st.pending ≠ []
  · rw [if_pos hpending]
    obtain ⟨hps, hpe⟩ := hp hpending
    rw [if_neg hpending] at hl
    refine ⟨chain'_concat_of_lastEndLe hc hl, ?_, ?_⟩
    · intro s hs
      rcases List.mem_append.mp hs with h1 | h2
      · exact hb s h1
      · simp only [List.mem_singleton] at h2
        subst h2
        exact ⟨hps, le_refl _⟩
    · intro s hs
      rcases List.mem_append.mp hs with h1 | h2
      · exact hg s h1
      · simp only [List.mem_singleton] at h2
        subst h2
        exact Or.inl hpe
  · rw [if_neg hpending]
    exact ⟨hc, hb, hg⟩

/-- C3 (amended): for every non-empty input and every options record, the
segments returned by `segmentDocument` are ordered and contiguous
(`startIndex ≤ endIndex`, each segment ends at or before the next one
starts, and all offsets stay within the document).  The per-segment token
bound however only holds for whole-document and boundary-merged segments;
a size-split segment is instead bounded by the **character** budget
`tokensToChars(maxTokensPerSegment)` unless it is a single atomic
paragraph (no blank-line separator inside), and its `estimatedTokens` may
exceed `maxTokensPerSegment` even when no single paragraph alone exceeds
the budget. -/
theorem segmentDocument_contiguity_budget (text sid : List Char)
    (opts : SegmentOptions) (h : trim text ≠ []) :
    List.Chain' segR (segmentDocument text sid opts) ∧
    (∀ s ∈ segmentDocument text sid opts,
      s.startIndex ≤ s.endIndex ∧ s.endIndex ≤ text.length) ∧
    (∀ s ∈ segmentDocument text sid opts,
      s.estimatedTokens ≤ opts.maxTokensPerSegment ∨
      s.text.length ≤ tokensToChars opts.maxTokensPerSegment ∨ noDD s.text) := by
  rw [segmentDocument, if_neg h]
  by_cases hsmall : estimateTokens text ≤ opts.maxTokensPerSegment
  · rw [if_pos hsmall]
    refine ⟨List.chain'_singleton _, ?_, ?_⟩
    · intro s hs
      simp only [List.mem_singleton] at hs
      subst hs
      exact ⟨Nat.zero_le _, le_refl _⟩
    · intro s hs
      simp only [List.mem_singleton] at hs
      subst hs
      exact Or.inl hsmall
  · rw [if_neg hsmall]
    by_cases hresp : opts.respectSectionBoundaries ∧
        1 < (detectStructure text).boundaries.length
    · rw [if_pos hresp]
      exact segmentBySections_spec text sid (detectStructure text) opts
        (detectStructure_boundaries_sorted text)
        (detectStructure_boundary_le text)
    · rw [if_neg hresp]
      obtain ⟨h1, h2, h3⟩ := segmentBySize_spec text sid opts 0 0
      refine ⟨h1, ?_, ?_⟩
      · intro s hs
        obtain ⟨ha, hb', hc'⟩ := h2 s hs
        exact ⟨hb', by simpa using hc'⟩
      · intro s hs
        rcases h3 s hs with hx | hx
        · exact Or.inr (Or.inl hx)
        · exact Or.inr (Or.inr hx)

/-- C3 witness input: three paragraphs, each within the 10-token budget,
whose total exceeds it. -/
def c3Text : List Char :=
  ". . . .\n\n. . . .\n\naaaaaaaaaaaaaaaaaaaaaaaaa".toList

/-- C3 witness: the amended statement instantiated at a concrete input. -/
theorem segmentDocument_contiguity_budget_witness :
    List.Chain' segR (segmentDocument c3Text "src".toList ⟨10, true, 100⟩) ∧
    (∀ s ∈ segmentDocument c3Text "src".toList ⟨10, true, 100⟩,
      s.startIndex ≤ s.endIndex ∧ s.endIndex ≤ c3Text.length) ∧
    (∀ s ∈ segmentDocument c3Text "src".toList ⟨10, true, 100⟩,
      s.estimatedTokens ≤ 10 ∨ s.text.length ≤ tokensToChars 10 ∨ noDD s.text) :=
  segmentDocument_contiguity_budget c3Text "src".toList ⟨10, true, 100⟩ (by decide)

/-- C3 counterexample: with a 10-token budget, every atomic paragraph of
`c3Text` is estimated within the budget, yet `segmentDocument` emits a
segment whose `estimatedTokens` exceeds it — the size splitter packs by a
4-chars-per-token character budget, not by `estimateTokens`. -/
theorem segmentDocument_token_budget_violated :
    (∀ p ∈ splitParas c3Text, estimateTokens p ≤ 10) ∧
    (∃ s ∈ segmentDocument c3Text "src".toList ⟨10, true, 100⟩,
      10 < s.estimatedTokens ∧ ¬ noDD s.text) := by
  constructor
  · decide
  · decide

/-! ## Claim theorems: whole-document passthrough (C4) -/

/-- C4 (amended): a non-empty document whose token estimate is within the
budget yields exactly one segment spanning `[0, text.length]`; its title
and level come from the boundary at **offset 0 only** (i.e. from a heading
on the first line) — a title detected at any later offset does not title
the segment. -/
theorem segmentDocument_single_segment (text sid : List Char)
    (opts : SegmentOptions) (h1 : trim text ≠ [])
    (h2 : estimateTokens text ≤ opts.maxTokensPerSegment) :
    segmentDocument text sid opts =
      [⟨sid, 0, 0, text.length,
        jsOrOpt ((detectStructure text).titles.lookup 0) none,
        ((detectStructure text).levels.lookup 0).getD 0,
        estimateTokens text, text⟩] := by
  rw [segmentDocument, if_neg h1, if_pos h2]

/-- C4 counterexample input: the only heading is on the second line. -/
def c4Text : List Char := "intro\n# T".toList

/-- C4 witness: the amended statement at a concrete input. -/
theorem segmentDocument_single_segment_witness :
    segmentDocument c4Text "src".toList ⟨100, true, 100⟩ =
      [⟨"src".toList, 0, 0, c4Text.length,
        jsOrOpt ((detectStructure c4Text).titles.lookup 0) none,
        ((detectStructure c4Text).levels.lookup 0).getD 0,
        estimateTokens c4Text, c4Text⟩] :=
  segmentDocument_single_segment c4Text "src".toList ⟨100, true, 100⟩
    (by decide) (by decide)

/-- C4 counterexample: the document fits the budget and a **titled**
boundary was detected (offset 6, title `"T"`), yet the single returned
segment carries no title — `segmentDocument` only consults the title map
at offset 0. -/
theorem segmentDocument_single_segment_untitled :
    estimateTokens c4Text ≤ 100 ∧
    (detectStructure c4Text).titles = [(6, "T".toList)] ∧
    (segmentDocument c4Text "src".toList ⟨100, true, 100⟩).map
      (fun s => s.sectionTitle) = [none] := by
  refine ⟨by decide, by decide, by decide⟩

/-! ## Aggregation service: insight index validation (C8) -/

/-- The fields of a stored `Summary` relevant to this development. -/
structure SummaryRow where
  id : Nat
  sourceId : List Char
  summaryType : List Char
  title : List Char
  content : List Char
  wordCount : Nat
  version : Nat
  isCurrent : Bool
deriving DecidableEq

/-- A JSON number as the parsed insights response can carry one,
represented by its floor and whether it is integral (so `0.5` is
`⟨0, false⟩` and `2` is `⟨2, true⟩`).  Every operation the code applies
to `sourceIndex` depends on the number only through this data: for a
non-integral `x` with floor `f`, `x >= 0 ↔ 0 ≤ f` (there is no number in
`(-1, 0]` other than 0 with floor `-1` … precisely, `x > f` and `x < f + 1`
give `x >= 0 ↔ 0 ≤ f`) and `x < n ↔ f < n`; and the element access
`summaries[x]` is `undefined` exactly when `x` is not an integer in
`[0, length)`. -/
structure JsonNum where
  floor : Int
  isInt : Bool
deriving DecidableEq

/-- One entry of the JSON array parsed inside `extractUniqueInsights`;
`sourceIndex = none` stands for a parsed value that is not a number (it
fails the `typeof` check). -/
structure InsightItem where
  sourceIndex : Option JsonNum
  insight : List Char
  significance : List Char
deriving DecidableEq

/-- An output tuple of `extractUniqueInsights`. -/
structure InsightOut where
  sourceId : List Char
  insight : List Char
  significance : List Char
deriving DecidableEq

/-- The bounds check of `extractUniqueInsights`:
`typeof sourceIndex === 'number' && sourceIndex >= 0 && sourceIndex <
summaries.length` — note there is no integrality test. -/
def validIndexB (n : Nat) (it : InsightItem) : Bool :=
  match it.sourceIndex with
  | none => false
  | some q => decide (0 ≤ q.floor) && decide (q.floor < (n : Int))

/-- JS element access `summaries[x]`: an element for an integral index
within bounds, `undefined` (`none`) for every other number and for a
non-number. -/
def jsElem (summaries : List SummaryRow) : Option JsonNum → Option SummaryRow
  | none => none
  | some q =>
    if q.isInt = true ∧ 0 ≤ q.floor then summaries.get? q.floor.toNat
    else none

/-- The array index the code reads for an integral `sourceIndex`. -/
def srcIdx (it : InsightItem) : Nat :=
  match it.sourceIndex with
  | some q => q.floor.toNat
  | none => 0

/-- The `try`-block of `extractUniqueInsights` from the parsed response
on: `parsed.filter(...).map(...)`, where the map reads
`summaries[item.sourceIndex].sourceId`.  Reading `.sourceId` of
`undefined` throws, and the surrounding `catch` turns the whole call into
`[]`; the `Option`-valued traversal models exactly that: the first
entry whose element access fails aborts the map and the result collapses
to the empty list. -/
def extractUniqueInsightsCore (summaries : List SummaryRow)
    (parsed : List InsightItem) : List InsightOut :=
  match (parsed.filter (validIndexB summaries.length)).mapM
      (fun it => (jsElem summaries it.sourceIndex).map
        fun row => (⟨row.sourceId, it.insight, it.significance⟩ : InsightOut)) with
  | some out => out
  | none => []

/-! ## Concept deduplication (C9) -/

/-- `\w` word character for the `\b` boundaries of the abbreviation
replacements. -/
def isWordChar (c : Char) : Bool := c.isAlphanum || c = '_'

/-- `replace(/\s+/g, ' ')`: collapse every whitespace run to one space.
The boolean tracks whether the previous character was whitespace. -/
def collapseWsAux : List Char → Bool → List Char
  | [], _ => []
  | c :: r, prevWs =>
    if isWsB c then
      if prevWs then collapseWsAux r true else ' ' :: collapseWsAux r true
    else c :: collapseWsAux r false

def collapseWs (l : List Char) : List Char := collapseWsAux l false

/-- `replace(/['']/g, "'")` and `replace(/[""]/g, '"')`. -/
def unifyQuotes (l : List Char) : List Char :=
  l.map fun c =>
    if c = '‘' ∨ c = '’' then '\''
    else if c = '“' ∨ c = '”' then '"'
    else c

/-- `replace(/ies$/, 'y')`. -/
def replaceIes (l : List Char) : List Char :=
  if "ies".toList.isSuffixOf l then l.take (l.length - 3) ++ ['y'] else l

/-- `replace(/s$/, '')`. -/
def dropTrailingS (l : List Char) : List Char :=
  if l.getLast? = some 's' then l.take (l.length - 1) else l

/-- Word-boundary test on the left of a match (`prev` is the previous
original character, `none` at the start of the string). -/
def boundaryBefore (prev : Option Char) : Bool :=
  match prev with
  | none => true
  | some p => !isWordChar p

/-- Word-boundary test on the right of a match. -/
def boundaryAfter (rest : List Char) : Bool :=
  match rest.head? with
  | none => true
  | some c => !isWordChar c

/-- `replace(/\bpat\b/g, rep)`: left-to-right scan over the original
string, replacements are not rescanned.  Fuel-indexed structural recursion
(the fuel is always sufficient from `replaceWordAll`). -/
def replaceWordGo (pat rep : List Char) : Nat → Option Char → List Char →
    List Char
  | 0, _, l => l
  | _ + 1, _, [] => []
  | fuel + 1, prev, c :: r =>
    if pat.isPrefixOf (c :: r) ∧ boundaryBefore prev ∧
        boundaryAfter ((c :: r).drop pat.length) then
      rep ++ replaceWordGo pat rep fuel pat.getLast? ((c :: r).drop pat.length)
    else
      c :: replaceWordGo pat rep fuel (some c) r

def replaceWordAll (pat rep l : List Char) : List Char :=
  replaceWordGo pat rep (l.length + 1) none l

/-- `normalizeConcept` from the aggregation service.  (JS `toLowerCase` is
modelled with ASCII lowercasing; every input exercised here is ASCII.) -/
def normalizeConcept (concept : List Char) : List Char :=
  let s1 := concept.map Char.toLower
  let s2 := trim s1
  let s3 := collapseWs s2
  let s4 := unifyQuotes s3
  let s5 := replaceIes s4
  let s6 := dropTrailingS s5
  let s7 := replaceWordAll "ai".toList "artificial intelligence".toList s6
  let s8 := replaceWordAll "ml".toList "machine learning".toList s7
  replaceWordAll "api".toList "application programming interface".toList s8

/-- A `{ concept, summaryId }` input pair of `findDuplicateConcepts`. -/
structure ConceptEntry where
  concept : List Char
  summaryId : List Char
deriving DecidableEq

/-- JS `Map.set`: update the first matching key in place, else append. -/
def setAssoc {α β : Type} [BEq α] : List (α × β) → α → β → List (α × β)
  | [], k, v => [(k, v)]
  | (k', v') :: t, k, v =>
    if k' == k then (k, v) :: t else (k', v') :: setAssoc t k v

/-- One iteration of the grouping loop of `findDuplicateConcepts`. -/
def groupStep (m : List (List Char × List (List Char))) (e : ConceptEntry) :
    List (List Char × List (List Char)) :=
  let norm := normalizeConcept e.concept
  let existing := (m.lookup norm).getD []
  let existing' := if e.summaryId ∈ existing then existing
    else existing ++ [e.summaryId]
  setAssoc m norm existing'

/-- `findDuplicateConcepts`: group by normalized concept and keep only the
groups referenced by more than one summary. -/
def findDuplicateConcepts (concepts : List ConceptEntry) :
    List (List Char × List (List Char)) :=
  (concepts.foldl groupStep []).filter fun p => 1 < p.2.length

/-! ## C9 proof: grouping characterization -/

/-- Distinct-or-not summary ids attached (via normalization) to `key`. -/
def idsOf (concepts : List ConceptEntry) (key : List Char) :
    List (List Char) :=
  (concepts.filter fun e => normalizeConcept e.concept = key).map
    (fun e => e.summaryId)

theorem setAssoc_lookup_self {β : Type} (m : List (List Char × β))
    (k : List Char) (v : β) : (setAssoc m k v).lookup k = some v := by
  induction m with
  | nil => simp [setAssoc, List.lookup_cons]
  | cons p t ih =>
    obtain ⟨k', v'⟩ := p
    by_cases h : k' = k
    · subst h
      simp [setAssoc, List.lookup_cons]
    · simp [setAssoc, beq_false_of_ne h, List.lookup_cons,
        beq_false_of_ne (Ne.symm h), ih]

theorem setAssoc_lookup_ne {β : Type} (m : List (List Char × β))
    {key k : List Char} (v : β) (h : key ≠ k) :
    (setAssoc m k v).lookup key = m.lookup key := by
  induction m with
  | nil => simp [setAssoc, List.lookup_cons, beq_false_of_ne h, List.lookup]
  | cons p t ih =>
    obtain ⟨k', v'⟩ := p
    by_cases hk : k' = k
    · subst hk
      simp [setAssoc, List.lookup_cons, beq_false_of_ne h]
    · by_cases hkey : key = k'
      · subst hkey
        simp [setAssoc, beq_false_of_ne hk, List.lookup_cons]
      · simp [setAssoc, beq_false_of_ne hk, List.lookup_cons,
          beq_false_of_ne hkey, ih]

theorem mem_keys_setAssoc {β : Type} (m : List (List Char × β))
    (x k : List Char) (v : β) :
    x ∈ (setAssoc m k v).map Prod.fst ↔ x ∈ m.map Prod.fst ∨ x = k := by
  induction m with
  | nil => simp [setAssoc]
  | cons p t ih =>
    obtain ⟨k', v'⟩ := p
    by_cases h : k' = k
    · subst h
      rw [setAssoc, if_pos (by simp)]
      simp only [List.map_cons, List.mem_cons]
      tauto
    · rw [setAssoc, if_neg (by simp [h])]
      simp only [List.map_cons, List.mem_cons]
      rw [ih]
      tauto

theorem nodup_keys_setAssoc {β : Type} (m : List (List Char × β))
    (k : List Char) (v : β) (h : (m.map Prod.fst).Nodup) :
    ((setAssoc m k v).map Prod.fst).Nodup := by
  induction m with
  | nil =>
    rw [setAssoc]
    exact List.nodup_singleton k
  | cons p t ih =>
    obtain ⟨k', v'⟩ := p
    simp only [List.map_cons, List.nodup_cons] at h
    by_cases hk : k' = k
    · subst hk
      rw [setAssoc, if_pos (by simp)]
      simp only [List.map_cons, List.nodup_cons]
      exact h
    · rw [setAssoc, if_neg (by simp [hk])]
      simp only [List.map_cons, List.nodup_cons]
      refine ⟨?_, ih h.2⟩
      rw [mem_keys_setAssoc]
      push_neg
      exact ⟨h.1, hk⟩

theorem lookup_eq_some_iff_mem {β : Type} {m : List (List Char × β)}
    (hnd : (m.map Prod.fst).Nodup) (k : List Char) (v : β) :
    m.lookup k = some v ↔ (k, v) ∈ m := by
  induction m with
  | nil => simp [List.lookup]
  | cons p t ih =>
    obtain ⟨k', v'⟩ := p
    simp only [List.map_cons, List.nodup_cons] at hnd
    by_cases hk : k = k'
    · subst hk
      simp only [List.lookup_cons, beq_self_eq_true]
      simp only [Option.some.injEq, List.mem_cons, Prod.mk.injEq]
      constructor
      · intro hv; exact Or.inl ⟨trivial, hv.symm⟩
      · intro hv
        rcases hv with ⟨_, hv⟩ | hv
        · exact hv.symm
        · exact absurd (List.mem_map_of_mem Prod.fst hv) hnd.1
    · simp only [List.lookup_cons, beq_false_of_ne hk]
      rw [ih hnd.2]
      simp only [List.mem_cons, Prod.mk.injEq]
      constructor
      · intro hv; exact Or.inr hv
      · intro hv
        rcases hv with ⟨hv, _⟩ | hv
        · exact absurd hv hk
        · exact hv

/-- Invariant of the grouping fold: the accumulated map has distinct keys,
and each key's group is the duplicate-free list of summary ids seen so far
for that normalized key. -/
def GroupInv (concepts : List ConceptEntry)
    (m : List (List Char × List (List Char))) : Prop :=
  (m.map Prod.fst).Nodup ∧
  ∀ key : List Char,
    (∀ ids, m.lookup key = some ids →
      ids.Nodup ∧ ids ≠ [] ∧ ∀ s, s ∈ ids ↔ s ∈ idsOf concepts key) ∧
    (m.lookup key = none → idsOf concepts key = [])

theorem idsOf_append_one (P : List ConceptEntry) (e : ConceptEntry)
    (key : List Char) :
    idsOf (P ++ [e]) key =
      if normalizeConcept e.concept = key then idsOf P key ++ [e.summaryId]
      else idsOf P key := by
  unfold idsOf
  rw [List.filter_append]
  by_cases h : normalizeConcept e.concept = key
  · rw [if_pos h]
    simp [List.filter, h]
  · rw [if_neg h]
    simp [List.filter, h]

theorem group_newIds_spec {ex : List (List Char)} {sid : List Char}
    (hexnd : ex.Nodup) :
    (if sid ∈ ex then ex else ex ++ [sid]).Nodup ∧
    (if sid ∈ ex then ex else ex ++ [sid]) ≠ [] ∧
    ∀ s, s ∈ (if sid ∈ ex then ex else ex ++ [sid]) ↔ s ∈ ex ∨ s = sid := by
  by_cases hin : sid ∈ ex
  · rw [if_pos hin]
    refine ⟨hexnd, ?_, ?_⟩
    · intro hc
      rw [hc] at hin
      simp at hin
    · intro s
      constructor
      · exact Or.inl
      · intro hc
        rcases hc with hc | hc
        · exact hc
        · subst hc; exact hin
  · rw [if_neg hin]
    refine ⟨?_, by simp, ?_⟩
    · rw [List.nodup_append]
      refine ⟨hexnd, List.nodup_singleton _, ?_⟩
      intro a ha hb
      simp only [List.mem_singleton] at hb
      subst hb
      exact hin ha
    · intro s
      simp only [List.mem_append, List.mem_singleton]

theorem groupStep_inv {P : List ConceptEntry}
    {m : List (List Char × List (List Char))} (e : ConceptEntry)
    (h : GroupInv P m) : GroupInv (P ++ [e]) (groupStep m e) := by
  obtain ⟨hnd, hkey⟩ := h
  have hgs : groupStep m e = setAssoc m (normalizeConcept e.concept)
      (if e.summaryId ∈ ((m.lookup (normalizeConcept e.concept)).getD []) then
        ((m.lookup (normalizeConcept e.concept)).getD [])
      else ((m.lookup (normalizeConcept e.concept)).getD []) ++ [e.summaryId]) :=
    rfl
  constructor
  · rw [hgs]
    exact nodup_keys_setAssoc m _ _ hnd
  · intro key
    by_cases hkn : key = normalizeConcept e.concept
    · constructor
      · intro ids hids
        rw [hgs, hkn, setAssoc_lookup_self] at hids
        simp only [Option.some.injEq] at hids
        subst hids
        rw [idsOf_append_one, if_pos hkn.symm]
        cases hlk : m.lookup (normalizeConcept e.concept) with
        | some ex =>
          obtain ⟨hexnd, _, hexmem⟩ :=
            (hkey (normalizeConcept e.concept)).1 ex hlk
          simp only [Option.getD_some]
          obtain ⟨g1, g2, g3⟩ := @group_newIds_spec ex e.summaryId hexnd
          refine ⟨g1, g2, ?_⟩
          intro s
          rw [g3 s, hkn]
          simp only [List.mem_append, List.mem_singleton]
          rw [hexmem s]
        | none =>
          have hempty := (hkey (normalizeConcept e.concept)).2 hlk
          simp only [Option.getD_none]
          rw [if_neg (by simp)]
          rw [hkn, hempty]
          refine ⟨by simp, by simp, ?_⟩
          intro s
          simp
      · intro hids
        rw [hgs, hkn, setAssoc_lookup_self] at hids
        exact absurd hids (by simp)
    · have hids_eq : (groupStep m e).lookup key = m.lookup key := by
        rw [hgs]
        exact setAssoc_lookup_ne _ _ hkn
      constructor
      · intro ids hids
        rw [hids_eq] at hids
        obtain ⟨h1, h2, h3⟩ := (hkey key).1 ids hids
        refine ⟨h1, h2, ?_⟩
        intro s
        rw [h3 s, idsOf_append_one, if_neg (fun hc => hkn hc.symm)]
      · intro hids
        rw [hids_eq] at hids
        rw [idsOf_append_one, if_neg (fun hc => hkn hc.symm)]
        exact (hkey key).2 hids

theorem foldl_groupStep_inv :
    ∀ (rest P : List ConceptEntry) (m : List (List Char × List (List Char))),
    GroupInv P m → GroupInv (P ++ rest) (rest.foldl groupStep m) := by
  intro rest
  induction rest with
  | nil => intro P m h; simpa using h
  | cons e t ih =>
    intro P m h
    rw [List.foldl_cons]
    have := ih (P ++ [e]) (groupStep m e) (groupStep_inv e h)
    simpa using this

theorem groupInv_nil : GroupInv [] [] := by
  refine ⟨by simp, ?_⟩
  intro key
  constructor
  · intro ids hids
    simp [List.lookup] at hids
  · intro _
    simp [idsOf]

/-- C9: `normalizeConcept` collapses `"APIs"` and `"api"` to the same
normalized string, and `findDuplicateConcepts` (a pure function in this
embedding) returns exactly the normalized keys that are backed by two or
more distinct summary ids. -/
theorem normalizeConcept_findDuplicateConcepts :
    normalizeConcept "APIs".toList = normalizeConcept "api".toList ∧
    ∀ (concepts : List ConceptEntry) (key : List Char),
      (∃ ids, (key, ids) ∈ findDuplicateConcepts concepts) ↔
      2 ≤ (idsOf concepts key).dedup.length := by
  constructor
  · decide
  · intro concepts key
    have hinv : GroupInv concepts (concepts.foldl groupStep []) := by
      have := foldl_groupStep_inv concepts [] [] groupInv_nil
      simpa using this
    obtain ⟨hnd, hkey⟩ := hinv
    constructor
    · rintro ⟨ids, hmem⟩
      rw [findDuplicateConcepts] at hmem
      rw [List.mem_filter] at hmem
      obtain ⟨hmem, hlen⟩ := hmem
      have hlk := (lookup_eq_some_iff_mem hnd key ids).mpr hmem
      obtain ⟨hidnd, _, hmemiff⟩ := (hkey key).1 ids hlk
      have hperm : List.Perm ids ((idsOf concepts key).dedup) := by
        rw [List.perm_ext_iff_of_nodup hidnd (List.nodup_dedup _)]
        intro a
        rw [hmemiff a, List.mem_dedup]
      rw [← hperm.length_eq]
      simp only [decide_eq_true_eq] at hlen
      omega
    · intro hlen
      cases hlk : (concepts.foldl groupStep []).lookup key with
      | none =>
        have := (hkey key).2 hlk
        rw [this] at hlen
        simp at hlen
      | some ids =>
        obtain ⟨hidnd, _, hmemiff⟩ := (hkey key).1 ids hlk
        have hperm : List.Perm ids ((idsOf concepts key).dedup) := by
          rw [List.perm_ext_iff_of_nodup hidnd (List.nodup_dedup _)]
          intro a
          rw [hmemiff a, List.mem_dedup]
        refine ⟨ids, ?_⟩
        rw [findDuplicateConcepts, List.mem_filter]
        refine ⟨(lookup_eq_some_iff_mem hnd key ids).mp hlk, ?_⟩
        simp only [decide_eq_true_eq]
        rw [hperm.length_eq]
        omega

/-! ## C8: insight index validation -/

theorem validIndexB_srcIdx_lt {n : Nat} {it : InsightItem}
    (h : validIndexB n it = true) : srcIdx it < n := by
  cases hsi : it.sourceIndex with
  | none => rw [validIndexB, hsi] at h; exact absurd h (by simp)
  | some q =>
    rw [validIndexB, hsi] at h
    simp only [Bool.and_eq_true, decide_eq_true_eq] at h
    simp only [srcIdx, hsi]
    omega

theorem mapM_eq_some_map {α β : Type} (f : α → Option β) (g : α → β) :
    ∀ l : List α, (∀ x ∈ l, f x = some (g x)) → l.mapM f = some (l.map g) := by
  intro l
  induction l with
  | nil => intro _; rfl
  | cons a t ih =>
    intro h
    rw [List.mapM_cons, h a (List.mem_cons_self _ _),
      ih fun x hx => h x (List.mem_cons_of_mem _ hx)]
    rfl

theorem mapM_eq_none_of_mem {α β : Type} (f : α → Option β) :
    ∀ (l : List α) (x : α), x ∈ l → f x = none → l.mapM f = none := by
  intro l
  induction l with
  | nil => intro x hx _; exact absurd hx (List.not_mem_nil x)
  | cons a t ih =>
    intro x hx hfx
    rw [List.mapM_cons]
    rcases List.mem_cons.mp hx with rfl | hxt
    · rw [hfx]; rfl
    · cases hfa : f a with
      | none => rfl
      | some b => rw [ih x hxt hfx]; rfl

/-- C8 (amended): when every entry admitted by the bounds filter carries
an integral `sourceIndex`, `extractUniqueInsights` drops exactly the
entries whose `sourceIndex` fails the number/bounds check (integer
out-of-range indices such as 99 against a 2-element list included) and
maps each remaining entry, unchanged, to the `sourceId` of the summary at
its index.  But when any admitted entry carries a non-integral
`sourceIndex`, the whole call returns `[]` — the remaining valid entries
are lost.  The last conjunct is the spec's concrete scenario with
integral indices. -/
theorem extractUniqueInsights_integral_spec :
    (∀ (summaries : List SummaryRow) (parsed : List InsightItem),
      (∀ it ∈ parsed.filter (validIndexB summaries.length),
        ∀ q, it.sourceIndex = some q → q.isInt = true) →
      extractUniqueInsightsCore summaries parsed =
        (parsed.filter (validIndexB summaries.length)).attach.map
          (fun p => ⟨(summaries.get ⟨srcIdx p.1,
              validIndexB_srcIdx_lt (List.of_mem_filter p.2)⟩).sourceId,
            p.1.insight, p.1.significance⟩)) ∧
    (∀ (summaries : List SummaryRow) (parsed : List InsightItem)
        (it : InsightItem) (q : JsonNum),
      it ∈ parsed → it.sourceIndex = some q → q.isInt = false →
      validIndexB summaries.length it = true →
      extractUniqueInsightsCore summaries parsed = []) ∧
    extractUniqueInsightsCore
        [⟨1, "A".toList, "key_points".toList, [], [], 0, 1, true⟩,
         ⟨2, "B".toList, "key_points".toList, [], [], 0, 1, true⟩]
        [⟨some ⟨99, true⟩, "x".toList, "high".toList⟩,
         ⟨some ⟨0, true⟩, "y".toList, "low".toList⟩,
         ⟨some ⟨1, true⟩, "z".toList, "mid".toList⟩] =
      [⟨"A".toList, "y".toList, "low".toList⟩,
       ⟨"B".toList, "z".toList, "mid".toList⟩] := by
  refine ⟨?_, ?_, by decide⟩
  · intro summaries parsed hint
    have hsome : (parsed.filter (validIndexB summaries.length)).mapM
        (fun it => (jsElem summaries it.sourceIndex).map
          fun row => (⟨row.sourceId, it.insight, it.significance⟩ : InsightOut)) =
        some ((parsed.filter (validIndexB summaries.length)).map
          fun it =>
            ⟨((summaries.get? (srcIdx it)).map (fun r => r.sourceId)).getD [],
              it.insight, it.significance⟩) := by
      apply mapM_eq_some_map
      intro it hit
      obtain ⟨q, hq⟩ : ∃ q, it.sourceIndex = some q := by
        cases hsi : it.sourceIndex with
        | none =>
          have hv := List.of_mem_filter hit
          rw [validIndexB, hsi] at hv
          exact absurd hv (by simp)
        | some q => exact ⟨q, rfl⟩
      have hv := List.of_mem_filter hit
      have hqi := hint it hit q hq
      have hb : 0 ≤ q.floor ∧ q.floor < (summaries.length : Int) := by
        rw [validIndexB, hq] at hv
        simpa using hv
      have hlt : q.floor.toNat < summaries.length := by omega
      simp only [hq, jsElem]
      rw [if_pos ⟨hqi, hb.1⟩, List.get?_eq_get hlt]
      simp [srcIdx, hq, List.getElem?_eq_getElem hlt]
    simp only [extractUniqueInsightsCore, hsome]
    conv_lhs => rw [← List.attach_map_coe]
    apply List.map_congr_left
    intro p _
    obtain ⟨it, hmem⟩ := p
    have hlt : srcIdx it < summaries.length :=
      validIndexB_srcIdx_lt (List.of_mem_filter hmem)
    simp only
    rw [List.get?_eq_get hlt]
    simp
  · intro summaries parsed it q hmem hq hni hv
    have hnone : (parsed.filter (validIndexB summaries.length)).mapM
        (fun it => (jsElem summaries it.sourceIndex).map
          fun row => (⟨row.sourceId, it.insight, it.significance⟩ : InsightOut)) =
        none := by
      apply mapM_eq_none_of_mem _ _ it (List.mem_filter.mpr ⟨hmem, hv⟩)
      simp only [hq, jsElem]
      rw [if_neg (fun hc => by simp [hni] at hc)]
      rfl
    simp only [extractUniqueInsightsCore, hnone]

/-- C8 counterexample: a fractional `sourceIndex` within `[0, n)` — here
the number 0.5 (floor 0, non-integral) against a 2-element list — passes
the `typeof`/bounds filter, the map then evaluates
`summaries[0.5].sourceId`, which throws, and the `catch` returns `[]`:
the entry is not merely dropped and the remaining valid entry is not
returned, although on its own that valid entry would be (third
conjunct). -/
theorem extractUniqueInsights_fractional_collapse :
    validIndexB 2 ⟨some ⟨0, false⟩, "x".toList, "high".toList⟩ = true ∧
    extractUniqueInsightsCore
        [⟨1, "A".toList, "key_points".toList, [], [], 0, 1, true⟩,
         ⟨2, "B".toList, "key_points".toList, [], [], 0, 1, true⟩]
        [⟨some ⟨0, false⟩, "x".toList, "high".toList⟩,
         ⟨some ⟨1, true⟩, "y".toList, "low".toList⟩] = [] ∧
    extractUniqueInsightsCore
        [⟨1, "A".toList, "key_points".toList, [], [], 0, 1, true⟩,
         ⟨2, "B".toList, "key_points".toList, [], [], 0, 1, true⟩]
        [⟨some ⟨1, true⟩, "y".toList, "low".toList⟩] =
      [⟨"B".toList, "y".toList, "low".toList⟩] := by
  refine ⟨by decide, by decide, by decide⟩

/-! ## Versioned summary repository (`createSummary` / `createSummaries`)

The PostgreSQL and SQLite branches of the database client run the same
logic (compute the scope's next version, flip the scope's current rows,
insert the new row marked current); the embedding models that logic as
pure transitions on a list of rows.  `nanoid` ids are replaced by the row
count; timestamps are dropped. -/

/-- `CreateSummaryInput` (the fields the versioning logic consults). -/
structure CreateSummaryInput where
  sourceId : List Char
  summaryType : List Char
  title : List Char
  content : List Char
  wordCount : Nat
deriving DecidableEq

/-- `WHERE source_id = ? AND summary_type = ?`. -/
def scopeEqB (sid ty : List Char) (r : SummaryRow) : Bool :=
  r.sourceId = sid ∧ r.summaryType = ty

/-- The rows of one (sourceId, summaryType) scope, in table order. -/
def scopeRows (db : List SummaryRow) (sid ty : List Char) : List SummaryRow :=
  db.filter (scopeEqB sid ty)

/-- `SELECT COALESCE(MAX(version), 0) + 1 FROM summaries WHERE <scope>`. -/
def nextVersion (db : List SummaryRow) (sid ty : List Char) : Nat :=
  ((db.filter (scopeEqB sid ty)).map (fun r => r.version)).foldl Nat.max 0 + 1

/-- Effect of the `UPDATE ... SET is_current = false WHERE <scope> AND
is_current = true` statement on one row. -/
def flipRow (sid ty : List Char) (r : SummaryRow) : SummaryRow :=
  if scopeEqB sid ty r ∧ r.isCurrent then { r with isCurrent := false } else r

def flipCurrent (db : List SummaryRow) (sid ty : List Char) : List SummaryRow :=
  db.map (flipRow sid ty)

/-- `createSummary` from the database client. -/
def createSummary (db : List SummaryRow) (d : CreateSummaryInput) :
    List SummaryRow :=
  let v := nextVersion db d.sourceId d.summaryType
  flipCurrent db d.sourceId d.summaryType ++
    [⟨db.length, d.sourceId, d.summaryType, d.title, d.content, d.wordCount,
      v, true⟩]

/-- `` `${data.sourceId}:${data.summaryType}` `` — the `versionMap` key. -/
def versionKey (d : CreateSummaryInput) : List Char :=
  d.sourceId ++ ':' :: d.summaryType

/-- The batch loop of `createSummaries`: the first row of each
`versionKey` computes the scope's version and flips its current rows;
later rows with a cached key reuse the version and skip the flip. -/
def createSummariesGo : List CreateSummaryInput → List (List Char × Nat) →
    List SummaryRow → List SummaryRow
  | [], _, db => db
  | d :: ds, vm, db =>
    match vm.lookup (versionKey d) with
    | some v =>
      createSummariesGo ds vm (db ++
        [⟨db.length, d.sourceId, d.summaryType, d.title, d.content,
          d.wordCount, v, true⟩])
    | none =>
      createSummariesGo ds
        (vm ++ [(versionKey d, nextVersion db d.sourceId d.summaryType)])
        (createSummary db d)

/-- `createSummaries` from the database client. -/
def createSummaries (db : List SummaryRow) (ds : List CreateSummaryInput) :
    List SummaryRow :=
  if ds = [] then db else createSummariesGo ds [] db

/-- A repository write operation. -/
inductive RepoOp where
  | single : CreateSummaryInput → RepoOp
  | batch : List CreateSummaryInput → RepoOp
deriving DecidableEq

def applyOp (db : List SummaryRow) : RepoOp → List SummaryRow
  | .single d => createSummary db d
  | .batch ds => createSummaries db ds

def applyOps (ops : List RepoOp) (db : List SummaryRow) : List SummaryRow :=
  ops.foldl applyOp db

/-- The versioning invariant of one scope: at most one current row, and a
current row holds the scope's highest version. -/
def ScopeInv (db : List SummaryRow) (sid ty : List Char) : Prop :=
  (scopeRows db sid ty).countP (fun r => r.isCurrent) ≤ 1 ∧
  ∀ r ∈ scopeRows db sid ty, r.isCurrent →
    ∀ r' ∈ scopeRows db sid ty, r'.version ≤ r.version

instance (db : List SummaryRow) (sid ty : List Char) :
    Decidable (ScopeInv db sid ty) := by
  unfold ScopeInv
  infer_instance

/-! ## Repository invariant proofs -/

theorem flipRow_version (s t : List Char) (r : SummaryRow) :
    (flipRow s t r).version = r.version := by
  unfold flipRow
  split <;> rfl

theorem flipRow_sourceId (s t : List Char) (r : SummaryRow) :
    (flipRow s t r).sourceId = r.sourceId := by
  unfold flipRow
  split <;> rfl

theorem flipRow_summaryType (s t : List Char) (r : SummaryRow) :
    (flipRow s t r).summaryType = r.summaryType := by
  unfold flipRow
  split <;> rfl

theorem scopeEqB_flipRow (s' t' s t : List Char) (r : SummaryRow) :
    scopeEqB s' t' (flipRow s t r) = scopeEqB s' t' r := by
  unfold scopeEqB
  rw [flipRow_sourceId, flipRow_summaryType]

theorem flipRow_not_current {s t : List Char} {r : SummaryRow}
    (h : scopeEqB s t r = true) : (flipRow s t r).isCurrent = false := by
  unfold flipRow
  by_cases hc : r.isCurrent
  · rw [if_pos ⟨h, hc⟩]
  · rw [if_neg (fun hcon => hc hcon.2)]
    simpa using hc

theorem flipRow_eq_of_other {s t : List Char} {r : SummaryRow}
    (h : scopeEqB s t r = false) : flipRow s t r = r := by
  unfold flipRow
  rw [if_neg]
  intro hc
  rw [hc.1] at h
  exact absurd h (by simp)

theorem scopeRows_flip (db : List SummaryRow) (sid ty s t : List Char) :
    scopeRows (flipCurrent db s t) sid ty =
      (scopeRows db sid ty).map (flipRow s t) := by
  unfold scopeRows flipCurrent
  induction db with
  | nil => rfl
  | cons r dbt ih =>
    rw [List.map_cons, List.filter_cons, List.filter_cons, scopeEqB_flipRow]
    by_cases hsc : scopeEqB sid ty r = true
    · rw [if_pos hsc, if_pos hsc, List.map_cons, ih]
    · rw [if_neg hsc, if_neg hsc, ih]

theorem scopeRows_append (db l : List SummaryRow) (sid ty : List Char) :
    scopeRows (db ++ l) sid ty = scopeRows db sid ty ++ scopeRows l sid ty := by
  unfold scopeRows
  exact List.filter_append _ _

theorem mem_scopeRows_scope {db : List SummaryRow} {sid ty : List Char}
    {r : SummaryRow} (h : r ∈ scopeRows db sid ty) :
    r.sourceId = sid ∧ r.summaryType = ty := by
  have := List.of_mem_filter h
  simpa [scopeEqB] using this

theorem foldl_max_init_le (l : List Nat) : ∀ init : Nat, init ≤ l.foldl Nat.max init := by
  induction l with
  | nil => intro init; simp
  | cons x t ih =>
    intro init
    rw [List.foldl_cons]
    exact le_trans (Nat.le_max_left init x) (ih _)

theorem le_foldl_max {l : List Nat} {a : Nat} (h : a ∈ l) :
    ∀ init : Nat, a ≤ l.foldl Nat.max init := by
  induction l with
  | nil => simp at h
  | cons x t ih =>
    intro init
    rw [List.foldl_cons]
    rcases List.mem_cons.mp h with h1 | h2
    · subst h1
      exact le_trans (Nat.le_max_right init a) (foldl_max_init_le t _)
    · exact ih h2 _

theorem scopeRows_createSummary_same (db : List SummaryRow)
    (d : CreateSummaryInput) :
    scopeRows (createSummary db d) d.sourceId d.summaryType =
      (scopeRows db d.sourceId d.summaryType).map
        (flipRow d.sourceId d.summaryType) ++
      [⟨db.length, d.sourceId, d.summaryType, d.title, d.content, d.wordCount,
        nextVersion db d.sourceId d.summaryType, true⟩] := by
  simp only [createSummary]
  rw [scopeRows_append, scopeRows_flip]
  congr 1
  simp [scopeRows, List.filter, scopeEqB]

theorem scopeRows_createSummary_other (db : List SummaryRow)
    (d : CreateSummaryInput) (sid ty : List Char)
    (h : ¬(sid = d.sourceId ∧ ty = d.summaryType)) :
    scopeRows (createSummary db d) sid ty = scopeRows db sid ty := by
  simp only [createSummary]
  rw [scopeRows_append, scopeRows_flip]
  have h0 : scopeEqB sid ty (⟨db.length, d.sourceId, d.summaryType, d.title,
      d.content, d.wordCount, nextVersion db d.sourceId d.summaryType, true⟩ :
      SummaryRow) = false := by
    simp only [scopeEqB]
    rw [decide_eq_false]
    intro hc
    exact h ⟨hc.1.symm, hc.2.symm⟩
  have h1 : scopeRows [(⟨db.length, d.sourceId, d.summaryType, d.title,
      d.content, d.wordCount, nextVersion db d.sourceId d.summaryType, true⟩ :
      SummaryRow)] sid ty = [] := by
    simp [scopeRows, List.filter_cons, h0]
  rw [h1, List.append_nil]
  have h2 : ∀ r ∈ scopeRows db sid ty, flipRow d.sourceId d.summaryType r = r := by
    intro r hr
    obtain ⟨hr1, hr2⟩ := mem_scopeRows_scope hr
    apply flipRow_eq_of_other
    simp only [scopeEqB, hr1, hr2]
    rw [decide_eq_false]
    intro hc
    exact h hc
  calc (scopeRows db sid ty).map (flipRow d.sourceId d.summaryType)
      = (scopeRows db sid ty).map id := List.map_congr_left h2
    _ = scopeRows db sid ty := List.map_id _

theorem createSummary_scopeInv {db : List SummaryRow} {d : CreateSummaryInput}
    {sid ty : List Char} (h : ScopeInv db sid ty) :
    ScopeInv (createSummary db d) sid ty := by
  by_cases hsc : sid = d.sourceId ∧ ty = d.summaryType
  · obtain ⟨h1, h2⟩ := hsc
    subst h1 h2
    rw [ScopeInv, scopeRows_createSummary_same]
    have hmapcur : ∀ x ∈ (scopeRows db d.sourceId d.summaryType).map
        (flipRow d.sourceId d.summaryType), x.isCurrent = false := by
      intro x hx
      obtain ⟨r, hr, hfr⟩ := List.mem_map.mp hx
      obtain ⟨hr1, hr2⟩ := mem_scopeRows_scope hr
      subst hfr
      exact flipRow_not_current (by simp [scopeEqB, hr1, hr2])
    constructor
    · rw [List.countP_append]
      have hz : ((scopeRows db d.sourceId d.summaryType).map
          (flipRow d.sourceId d.summaryType)).countP (fun r => r.isCurrent) = 0 := by
        rw [List.countP_eq_zero]
        intro a ha
        simp [hmapcur a ha]
      rw [hz]
      simp
    · intro r hr hcur r' hr'
      rcases List.mem_append.mp hr with hmem | hmem
      · rw [hmapcur r hmem] at hcur
        exact absurd hcur (by simp)
      · simp only [List.mem_singleton] at hmem
        subst hmem
        simp only
        rcases List.mem_append.mp hr' with hmem' | hmem'
        · obtain ⟨q, hq, hfq⟩ := List.mem_map.mp hmem'
          subst hfq
          rw [flipRow_version]
          have : q.version ∈ (scopeRows db d.sourceId d.summaryType).map
              (fun r => r.version) := List.mem_map_of_mem _ hq
          have := le_foldl_max this 0
          simp only [nextVersion]
          unfold scopeRows at this
          omega
        · simp only [List.mem_singleton] at hmem'
          subst hmem'
          exact le_refl _
  · rw [ScopeInv, scopeRows_createSummary_other db d sid ty hsc]
    exact h

theorem lookup_append_of_none {β : Type} {vm : List (List Char × β)}
    {vm₂ : List (List Char × β)} {key : List Char}
    (h : vm.lookup key = none) : (vm ++ vm₂).lookup key = vm₂.lookup key := by
  induction vm with
  | nil => simp
  | cons p t ih =>
    obtain ⟨k, v⟩ := p
    cases hk : key == k with
    | true =>
      rw [List.lookup_cons] at h
      simp only [hk] at h
      exact absurd h (by simp)
    | false =>
      rw [List.cons_append, List.lookup_cons]
      simp only [hk]
      rw [List.lookup_cons] at h
      simp only [hk] at h
      exact ih h

theorem createSummariesGo_cons_none {d : CreateSummaryInput}
    {ds : List CreateSummaryInput} {vm : List (List Char × Nat)}
    {db : List SummaryRow} (h : vm.lookup (versionKey d) = none) :
    createSummariesGo (d :: ds) vm db =
      createSummariesGo ds
        (vm ++ [(versionKey d, nextVersion db d.sourceId d.summaryType)])
        (createSummary db d) := by
  rw [createSummariesGo, h]

theorem createSummariesGo_inv :
    ∀ (ds : List CreateSummaryInput) (vm : List (List Char × Nat))
      (db : List SummaryRow),
    (ds.map versionKey).Nodup →
    (∀ d ∈ ds, vm.lookup (versionKey d) = none) →
    (∀ sid ty, ScopeInv db sid ty) →
    ∀ sid ty, ScopeInv (createSummariesGo ds vm db) sid ty := by
  intro ds
  induction ds with
  | nil =>
    intro vm db _ _ h sid ty
    rw [createSummariesGo]
    exact h sid ty
  | cons d ds' ih =>
    intro vm db hnd hnone hinv sid ty
    rw [createSummariesGo_cons_none (hnone d (by simp))]
    simp only [List.map_cons, List.nodup_cons] at hnd
    refine ih _ _ hnd.2 ?_ (fun s t => createSummary_scopeInv (hinv s t)) sid ty
    intro d' hd'
    rw [lookup_append_of_none (hnone d' (by simp [hd']))]
    have hne : versionKey d' ≠ versionKey d := by
      intro hc
      exact hnd.1 (hc ▸ List.mem_map_of_mem versionKey hd')
    rw [List.lookup_cons]
    simp [beq_false_of_ne hne]

theorem createSummaries_inv {db : List SummaryRow}
    {ds : List CreateSummaryInput} (hnd : (ds.map versionKey).Nodup)
    (hinv : ∀ sid ty, ScopeInv db sid ty) :
    ∀ sid ty, ScopeInv (createSummaries db ds) sid ty := by
  rw [createSummaries]
  by_cases hds : ds = []
  · rw [if_pos hds]
    exact hinv
  · rw [if_neg hds]
    exact createSummariesGo_inv ds [] db hnd (fun d _ => rfl) hinv

/-- Per-operation precondition for the amended invariant: every batch's
`versionMap` keys are pairwise distinct (one row per scope, with no
`sourceId:summaryType` key collisions). -/
def BatchKeysNodup : RepoOp → Prop
  | .single _ => True
  | .batch ds => (ds.map versionKey).Nodup

instance (op : RepoOp) : Decidable (BatchKeysNodup op) := by
  unfold BatchKeysNodup
  cases op <;> infer_instance

theorem applyOps_inv : ∀ (ops : List RepoOp) (db : List SummaryRow),
    (∀ op ∈ ops, BatchKeysNodup op) →
    (∀ sid ty, ScopeInv db sid ty) →
    ∀ sid ty, ScopeInv (applyOps ops db) sid ty := by
  intro ops
  induction ops with
  | nil => intro db _ h; exact h
  | cons op rest ih =>
    intro db hops hinv
    rw [applyOps, List.foldl_cons]
    refine ih (applyOp db op) (fun o ho => hops o (by simp [ho])) ?_
    cases op with
    | single d => exact fun s t => createSummary_scopeInv (hinv s t)
    | batch ds =>
      have := hops (RepoOp.batch ds) (by simp)
      exact createSummaries_inv this hinv

/-! ## Claim theorems: versioning invariant (C1) and iterated inserts (C5) -/

/-- C1 (amended): for every sequence of repository writes in which each
batch carries at most one row per `versionMap` key (`sourceId:summaryType`),
after each operation completes every (sourceId, summaryType) scope has at
most one current row, and that row holds the scope's highest version.  A
batch with several rows for one scope violates the invariant (see the
counterexample): all of them are inserted current with the same cached
version. -/
theorem applyOps_scope_invariant (ops : List RepoOp)
    (hbatch : ∀ op ∈ ops, BatchKeysNodup op) (n : Nat) (sid ty : List Char) :
    ScopeInv (applyOps (ops.take n) []) sid ty := by
  refine applyOps_inv (ops.take n) []
    (fun op hop => hbatch op (List.mem_of_mem_take hop)) ?_ sid ty
  intro sid' ty'
  exact ⟨by simp [scopeRows], by simp [scopeRows]⟩

/-- C1 witness: a mixed sequence — one single insert, then a batch with
two distinct scopes — checked after each of its prefixes for a concrete
scope. -/
theorem applyOps_scope_invariant_witness :
    ScopeInv (applyOps (([RepoOp.single
        ⟨"s".toList, "segment".toList, "t1".toList, "c1".toList, 1⟩,
      RepoOp.batch
        [⟨"s".toList, "segment".toList, "t2".toList, "c2".toList, 2⟩,
         ⟨"s".toList, "executive".toList, "t3".toList, "c3".toList, 3⟩]]).take 2)
      []) "s".toList "segment".toList :=
  applyOps_scope_invariant _ (by decide) 2 "s".toList "segment".toList

/-- C1 counterexample, in two parts.  First: a single batch containing
two rows for the same (sourceId, summaryType) scope leaves **two** rows
marked current (with the same version), so the claimed invariant fails
after that operation.  Second: distinctness of the batch rows'
**scopes** is not enough to restore the invariant, because the
`versionMap` key is the string `` `${sourceId}:${summaryType}` `` and a
`:` inside `sourceId` or `summaryType` can make two different scopes
collide on one key — the scopes `("a:b", "c")` and `("a", "b:c")` share
the key `"a:b:c"`, the cache hit skips the second scope's flip, and a
previously current row of scope `("a", "b:c")` stays current next to the
newly inserted current row.  Hence the amended claim requires pairwise
distinct keys, strictly stronger than one row per scope. -/
theorem createSummaries_same_scope_batch_breaks_invariant :
    (¬ ScopeInv (applyOps [RepoOp.batch
        [⟨"s".toList, "segment".toList, "t1".toList, "c1".toList, 1⟩,
         ⟨"s".toList, "segment".toList, "t2".toList, "c2".toList, 2⟩]] [])
      "s".toList "segment".toList ∧
    (scopeRows (applyOps [RepoOp.batch
        [⟨"s".toList, "segment".toList, "t1".toList, "c1".toList, 1⟩,
         ⟨"s".toList, "segment".toList, "t2".toList, "c2".toList, 2⟩]] [])
      "s".toList "segment".toList).countP (fun r => r.isCurrent) = 2) ∧
    ((("a:b".toList : List Char), ("c".toList : List Char)) ≠
        ("a".toList, "b:c".toList) ∧
    versionKey ⟨"a:b".toList, "c".toList, "t1".toList, "c1".toList, 2⟩ =
      versionKey ⟨"a".toList, "b:c".toList, "t2".toList, "c2".toList, 3⟩ ∧
    ¬ ScopeInv (applyOps
        [RepoOp.single ⟨"a".toList, "b:c".toList, "t0".toList, "c0".toList, 1⟩,
         RepoOp.batch
          [⟨"a:b".toList, "c".toList, "t1".toList, "c1".toList, 2⟩,
           ⟨"a".toList, "b:c".toList, "t2".toList, "c2".toList, 3⟩]] [])
      "a".toList "b:c".toList ∧
    (scopeRows (applyOps
        [RepoOp.single ⟨"a".toList, "b:c".toList, "t0".toList, "c0".toList, 1⟩,
         RepoOp.batch
          [⟨"a:b".toList, "c".toList, "t1".toList, "c1".toList, 2⟩,
           ⟨"a".toList, "b:c".toList, "t2".toList, "c2".toList, 3⟩]] [])
      "a".toList "b:c".toList).countP (fun r => r.isCurrent) = 2) := by
  refine ⟨⟨by decide, by decide⟩, by decide, by decide, by decide, by decide⟩

theorem foldl_max_range' : ∀ k : Nat, (List.range' 1 k).foldl Nat.max 0 = k := by
  intro k
  induction k with
  | zero => rfl
  | succ n ih =>
    rw [List.range'_1_concat, List.foldl_append, ih]
    simp only [List.foldl_cons, List.foldl_nil]
    unfold Nat.max
    omega

theorem createSummary_repeat_aux (db0 : List SummaryRow) (sid ty : List Char)
    (h0 : scopeRows db0 sid ty = []) :
    ∀ inputs : List CreateSummaryInput,
    (∀ d ∈ inputs, d.sourceId = sid ∧ d.summaryType = ty) →
    ((scopeRows (inputs.foldl createSummary db0) sid ty).map
      (fun r => r.version) = List.range' 1 inputs.length) ∧
    ((scopeRows (inputs.foldl createSummary db0) sid ty).map
      (fun r => r.isCurrent) =
      if inputs.length = 0 then []
      else List.replicate (inputs.length - 1) false ++ [true]) := by
  intro inputs
  induction inputs using List.reverseRecOn with
  | nil => simp [h0]
  | append_singleton xs d ih =>
    intro hin
    obtain ⟨ih1, ih2⟩ := ih (fun e he => hin e (by simp [he]))
    obtain ⟨hd1, hd2⟩ := hin d (by simp)
    rw [List.foldl_append, List.foldl_cons, List.foldl_nil]
    set DB := xs.foldl createSummary db0 with hDB
    have hsame := scopeRows_createSummary_same DB d
    rw [hd1, hd2] at hsame
    have hk : (scopeRows DB sid ty).length = xs.length := by
      have := congrArg List.length ih1
      simpa using this
    have hver : nextVersion DB sid ty = 1 + xs.length := by
      unfold nextVersion
      have : (List.filter (scopeEqB sid ty) DB).map (fun r => r.version) =
          List.range' 1 xs.length := ih1
      rw [this, foldl_max_range']
      omega
    constructor
    · rw [hsame, List.map_append, List.map_map]
      have hvmap : (scopeRows DB sid ty).map
          ((fun r => r.version) ∘ flipRow sid ty) =
          (scopeRows DB sid ty).map (fun r => r.version) := by
        apply List.map_congr_left
        intro r _
        simp [Function.comp, flipRow_version]
      rw [hvmap, ih1]
      simp only [List.map_cons, List.map_nil]
      rw [List.length_append, List.length_singleton, List.range'_1_concat, hver]
    · rw [hsame, List.map_append, List.map_map]
      have hcmap : (scopeRows DB sid ty).map
          ((fun r => r.isCurrent) ∘ flipRow sid ty) =
          List.replicate xs.length false := by
        rw [List.eq_replicate_iff]
        constructor
        · simpa using hk
        · intro b hb
          rw [List.mem_map] at hb
          obtain ⟨r, hr, hfr⟩ := hb
          obtain ⟨hr1, hr2⟩ := mem_scopeRows_scope hr
          rw [← hfr]
          simp only [Function.comp]
          exact flipRow_not_current (by simp [scopeEqB, hr1, hr2])
      rw [hcmap]
      rw [List.length_append, List.length_singleton]
      rw [if_neg (by omega)]
      simp

/-- C5: running `createSummary` N ≥ 1 times for the same scope, starting
from a state with no rows in that scope, yields rows carrying versions
1..N in insertion order, with only the Nth row current (the other N − 1
rows are non-current). -/
theorem createSummary_iterated_versions (db0 : List SummaryRow)
    (sid ty : List Char) (inputs : List CreateSummaryInput)
    (h0 : scopeRows db0 sid ty = [])
    (hin : ∀ d ∈ inputs, d.sourceId = sid ∧ d.summaryType = ty)
    (hne : inputs ≠ []) :
    ((scopeRows (inputs.foldl createSummary db0) sid ty).map
      (fun r => r.version) = List.range' 1 inputs.length) ∧
    ((scopeRows (inputs.foldl createSummary db0) sid ty).map
      (fun r => r.isCurrent) =
      List.replicate (inputs.length - 1) false ++ [true]) := by
  obtain ⟨h1, h2⟩ := createSummary_repeat_aux db0 sid ty h0 inputs hin
  refine ⟨h1, ?_⟩
  rw [h2, if_neg]
  simpa using hne

/-- C5 witness: three inserts into an initially unrelated database. -/
theorem createSummary_iterated_versions_witness :
    ((scopeRows (([⟨"s".toList, "executive".toList, "t1".toList, "c1".toList, 1⟩,
        ⟨"s".toList, "executive".toList, "t2".toList, "c2".toList, 2⟩,
        ⟨"s".toList, "executive".toList, "t3".toList, "c3".toList, 3⟩] :
        List CreateSummaryInput).foldl createSummary
        [⟨0, "other".toList, "executive".toList, [], [], 0, 1, true⟩])
      "s".toList "executive".toList).map (fun r => r.version) =
      List.range' 1 3) ∧
    ((scopeRows (([⟨"s".toList, "executive".toList, "t1".toList, "c1".toList, 1⟩,
        ⟨"s".toList, "executive".toList, "t2".toList, "c2".toList, 2⟩,
        ⟨"s".toList, "executive".toList, "t3".toList, "c3".toList, 3⟩] :
        List CreateSummaryInput).foldl createSummary
        [⟨0, "other".toList, "executive".toList, [], [], 0, 1, true⟩])
      "s".toList "executive".toList).map (fun r => r.isCurrent) =
      List.replicate 2 false ++ [true]) :=
  createSummary_iterated_versions _ "s".toList "executive".toList _
    (by decide) (by decide) (by decide)

/-! ## Multi-level summarization pipeline

The external generative capability (`anthropic.messages.create`) is an
opaque collaborator: it is modelled as a function from the structured
request each call site builds to a result (content plus token usage).
Wall-clock durations are dropped, and the generation-metadata fields of
`CreateSummaryInput` are not modelled (the claims concern list shape and
summary types).  `generateDetailedSummary` reads
`AI_CONFIG.summarization.detailedOutputTokens`, a property that does not
exist in `src/config/ai-config.ts`; at run time that property access
throws before the request is built, and the `catch` wraps the `TypeError`
as a "Failed to generate detailed summary" error. -/

/-- Output of the generative-text capability. -/
structure GenOut where
  content : List Char
  inputTokens : Nat
  outputTokens : Nat
deriving DecidableEq

/-- One request to the generative capability, as built by the call sites
of the summarization service (`detailed` is declared for completeness but
never reached; see `generateDetailedSummary`). -/
inductive GenRequest where
  | segment (sourceTitle : List Char) (sectionTitle : Option (List Char))
      (text : List Char) (maxTokens : Nat)
  | keyPoints (sourceTitle : List Char) (segmentSummaries : List (List Char))
      (maxTokens : Nat)
  | executive (sourceTitle : List Char) (keyPointsSummary : List Char)
      (maxTokens : Nat)
  | detailed (sourceTitle : List Char) (segmentSummaries : List (List Char))
      (maxTokens : Nat)
deriving DecidableEq

/-- `DEFAULT_SUMMARIZATION_CONFIG` from `types/summaries.ts`
(= `SUMMARIZATION_CONFIG` of the summarization service). -/
structure SummarizationConfig where
  maxSegmentTokens : Nat
  segmentSummaryTokens : Nat
  keyPointsOutputTokens : Nat
  executiveOutputTokens : Nat

def DEFAULT_SUMMARIZATION_CONFIG : SummarizationConfig :=
  { maxSegmentTokens := 15000, segmentSummaryTokens := 2000,
    keyPointsOutputTokens := 1500, executiveOutputTokens := 800 }

/-- Decimal rendering for the template literals (`Segment ${i}` …). -/
def natToChars (n : Nat) : List Char := (Nat.repr n).toList

/-- `generateSegmentSummary`. -/
def generateSegmentSummary (gen : GenRequest → Except (List Char) GenOut)
    (segment : Seg) (sourceTitle : List Char) : Except (List Char) GenOut :=
  if sourceTitle = [] then
    .error "sourceTitle is required and must be a string".toList
  else if trim segment.text = [] then
    .error ("Segment ".toList ++ natToChars segment.segmentIndex ++
      " has no text content".toList)
  else
    match gen (.segment sourceTitle segment.sectionTitle segment.text
        DEFAULT_SUMMARIZATION_CONFIG.segmentSummaryTokens) with
    | .ok r => .ok r
    | .error e => .error ("Failed to generate segment summary: ".toList ++ e)

/-- `generateKeyPointsSummary`. -/
def generateKeyPointsSummary (gen : GenRequest → Except (List Char) GenOut)
    (segmentSummaries : List (List Char)) (sourceTitle : List Char) :
    Except (List Char) GenOut :=
  if sourceTitle = [] then
    .error "sourceTitle is required and must be a string".toList
  else if segmentSummaries = [] then
    .error "At least one segment summary is required".toList
  else
    match gen (.keyPoints sourceTitle segmentSummaries
        DEFAULT_SUMMARIZATION_CONFIG.keyPointsOutputTokens) with
    | .ok r => .ok r
    | .error e => .error ("Failed to generate key points summary: ".toList ++ e)

/-- `generateExecutiveSummary`. -/
def generateExecutiveSummary (gen : GenRequest → Except (List Char) GenOut)
    (keyPointsSummary sourceTitle : List Char) : Except (List Char) GenOut :=
  if sourceTitle = [] then
    .error "sourceTitle is required and must be a string".toList
  else if trim keyPointsSummary = [] then
    .error "keyPointsSummary is required and must be non-empty".toList
  else
    match gen (.executive sourceTitle keyPointsSummary
        DEFAULT_SUMMARIZATION_CONFIG.executiveOutputTokens) with
    | .ok r => .ok r
    | .error e => .error ("Failed to generate executive summary: ".toList ++ e)

/-- `generateDetailedSummary`: after its input validation, the function
reads `AI_CONFIG.summarization.detailedOutputTokens` inside its `try`
block; `AI_CONFIG` has no `summarization` property, so the access throws a
`TypeError` before the request is built, and the `catch` rethrows it with
the step label. -/
def generateDetailedSummary (_gen : GenRequest → Except (List Char) GenOut)
    (segmentSummaries : List (List Char)) (sourceTitle : List Char) :
    Except (List Char) GenOut :=
  if sourceTitle = [] then
    .error "sourceTitle is required and must be a string".toList
  else if segmentSummaries = [] then
    .error "At least one segment summary is required".toList
  else
    .error ("Failed to generate detailed summary: ".toList ++
      "Cannot read properties of undefined (reading detailedOutputTokens)".toList)

/-- One `onProgress` payload. -/
structure ProgressEvent where
  phase : List Char
  current : Nat
  total : Nat
  percent : Nat
deriving DecidableEq

/-- `Math.round(a / b)` for `b > 0`, exactly over the rationals. -/
def jsRoundDiv (a b : Nat) : Nat := (2 * a + b) / (2 * b)

/-- `CreateSummaryInput` produced by the pipeline for one summary. -/
def mkSummaryInput (sourceId ty title content : List Char) :
    CreateSummaryInput :=
  ⟨sourceId, ty, title, content, getWordCount content⟩

/-- `segments[i].sectionTitle || Segment ${i + 1}`. -/
def segmentSummaryTitle (seg : Seg) (i : Nat) : List Char :=
  match seg.sectionTitle with
  | some t => if t = [] then "Segment ".toList ++ natToChars (i + 1) else t
  | none => "Segment ".toList ++ natToChars (i + 1)

/-- Phase 2 of `generateHierarchicalSummaries`: summarize each segment in
index order, emitting one progress event before each call; the first
failure aborts the loop. -/
def segLoop (gen : GenRequest → Except (List Char) GenOut)
    (sourceId sourceTitle : List Char) (nSegs totalSteps : Nat) :
    List Seg → Nat →
    List ProgressEvent ×
      Except (List Char) (List CreateSummaryInput × List (List Char))
  | [], _ => ([], .ok ([], []))
  | seg :: rest, i =>
    let ev : ProgressEvent :=
      ⟨"Summarizing segment ".toList ++ natToChars (i + 1) ++ "/".toList ++
        natToChars nSegs, i + 1, totalSteps,
        jsRoundDiv ((i + 1) * 80) totalSteps⟩
    match generateSegmentSummary gen seg sourceTitle with
    | .error e => ([ev], .error e)
    | .ok r =>
      let res := segLoop gen sourceId sourceTitle nSegs totalSteps rest (i + 1)
      (ev :: res.1, res.2.map fun p =>
        (mkSummaryInput sourceId "segment".toList (segmentSummaryTitle seg i)
          r.content :: p.1, r.content :: p.2))

/-- `generateHierarchicalSummaries`, with the progress events collected
into a list (the caller-supplied callback observes exactly this
sequence). -/
def generateHierarchicalSummariesCore
    (gen : GenRequest → Except (List Char) GenOut)
    (sourceId sourceTitle text : List Char) :
    List ProgressEvent ×
      Except (List Char) (List Seg × List CreateSummaryInput) :=
  let ev1 : ProgressEvent := ⟨"Segmenting document".toList, 0, 4, 5⟩
  let segments := segmentDocument text sourceId DEFAULT_OPTIONS
  let totalSteps := segments.length + 3
  let loop := segLoop gen sourceId sourceTitle segments.length totalSteps
    segments 0
  match loop.2 with
  | .error e => (ev1 :: loop.1, .error e)
  | .ok p =>
    let ev2 : ProgressEvent :=
      ⟨"Generating key points".toList, segments.length + 1, totalSteps, 85⟩
    match generateKeyPointsSummary gen p.2 sourceTitle with
    | .error e => (ev1 :: loop.1 ++ [ev2], .error e)
    | .ok kp =>
      let ev3 : ProgressEvent :=
        ⟨"Generating executive summary".toList, segments.length + 2,
          totalSteps, 92⟩
      match generateExecutiveSummary gen kp.content sourceTitle with
      | .error e => (ev1 :: loop.1 ++ [ev2, ev3], .error e)
      | .ok ex =>
        let ev4 : ProgressEvent :=
          ⟨"Generating detailed summary".toList, segments.length + 3,
            totalSteps, 97⟩
        match generateDetailedSummary gen p.2 sourceTitle with
        | .error e => (ev1 :: loop.1 ++ [ev2, ev3, ev4], .error e)
        | .ok det =>
          let ev5 : ProgressEvent :=
            ⟨"Complete".toList, totalSteps, totalSteps, 100⟩
          (ev1 :: loop.1 ++ [ev2, ev3, ev4, ev5],
            .ok (segments,
              mkSummaryInput sourceId "executive".toList
                ("Executive Summary: ".toList ++ sourceTitle) ex.content ::
              mkSummaryInput sourceId "key_points".toList
                ("Key Points: ".toList ++ sourceTitle) kp.content ::
              mkSummaryInput sourceId "detailed".toList
                ("Detailed Summary: ".toList ++ sourceTitle) det.content ::
              p.1))

/-- `generateHierarchicalSummaries` with an optional progress callback:
`onProgress?.()` fires the events exactly when a callback is supplied and
never influences the result. -/
def generateHierarchicalSummaries
    (gen : GenRequest → Except (List Char) GenOut) (withProgress : Bool)
    (sourceId sourceTitle text : List Char) :
    List ProgressEvent ×
      Except (List Char) (List Seg × List CreateSummaryInput) :=
  let core := generateHierarchicalSummariesCore gen sourceId sourceTitle text
  (if withProgress then core.1 else [], core.2)

/-! ## Claim theorems: pipeline shape (C2) -/

/-- A generative oracle that always succeeds with fixed non-empty content,
used to instantiate the pipeline at concrete inputs. -/
def constGen : GenRequest → Except (List Char) GenOut :=
  fun _ => .ok ⟨"ok summary".toList, 1, 1⟩

/-- Every branch of `generateDetailedSummary` is an error: its input
validation throws, and otherwise the dereference of the missing
`AI_CONFIG.summarization` throws. -/
theorem generateDetailedSummary_ne_ok
    (g : GenRequest → Except (List Char) GenOut) (ss : List (List Char))
    (t : List Char) (r : GenOut) : generateDetailedSummary g ss t ≠ .ok r := by
  unfold generateDetailedSummary
  split
  · exact fun h => Except.noConfusion h
  · split
    · exact fun h => Except.noConfusion h
    · exact fun h => Except.noConfusion h

/-- C2 [code bug]: `generateHierarchicalSummaries` never returns the
promised `segments.length + 3` summaries — for every oracle and every
input its result is an error, because `generateDetailedSummary` reads
`AI_CONFIG.summarization.detailedOutputTokens` and `AI_CONFIG` has no
`summarization` property.  Concretely, on the document `"hello world"`
with an oracle that always succeeds, the run fails at the
detailed-summary step with the wrapped `TypeError`. -/
theorem generateHierarchicalSummaries_never_returns :
    (∀ (gen : GenRequest → Except (List Char) GenOut) (w : Bool)
        (sid ti te : List Char) (p : List Seg × List CreateSummaryInput),
        (generateHierarchicalSummaries gen w sid ti te).2 ≠ .ok p) ∧
      (generateHierarchicalSummaries constGen true "src".toList "Doc".toList
          "hello world".toList).2 =
        .error ("Failed to generate detailed summary: ".toList ++
          "Cannot read properties of undefined (reading detailedOutputTokens)".toList) := by
  constructor
  · intro gen w sid ti te p h
    simp only [generateHierarchicalSummaries,
      generateHierarchicalSummariesCore] at h
    split at h
    · exact Except.noConfusion h
    · split at h
      · exact Except.noConfusion h
      · split at h
        · exact Except.noConfusion h
        · split at h
          · exact Except.noConfusion h
          · rename_i det hdet
            exact absurd hdet (generateDetailedSummary_ne_ok _ _ _ det)
  · rfl

/-! ## Claim theorems: progress reporting (C6)

The percent values passed to `onProgress` are 5, then
`Math.round(((i + 1) / (n + 3)) * 80)` per segment, then 85, 92, 97, 100.
For a document with many segments the first per-segment percent drops
below the initial 5, so the sequence is not monotone.  The witness
document is fifteen paragraphs of 60001 periods each: every paragraph
(60003 characters with its break) overflows the 60000-character packing
budget of `segmentBySize`, so the document yields fifteen segments. -/

/-- The percent schedule of `generateHierarchicalSummaries` for an
`n`-segment document, read off its `onProgress` call sites. -/
def pipelinePercents (n : Nat) : List Nat :=
  5 :: ((List.range n).map fun i => jsRoundDiv ((i + 1) * 80) (n + 3)) ++
    [85, 92, 97, 100]

/-- One paragraph of 60001 periods. -/
def dotPara : List Char := List.replicate 60001 '.'

/-- Join paragraphs with blank-line (`"\n\n"`) separators. -/
def joinNN : List (List Char) → List Char
  | [] => []
  | [p] => p
  | p :: q :: ps => p ++ '\n' :: '\n' :: joinNN (q :: ps)

/-- Fifteen dot paragraphs. -/
def c6Text : List Char := joinNN (List.replicate 15 dotPara)

theorem breakNN_none_of_no_nl : ∀ {p : List Char}, (∀ c ∈ p, c ≠ '\n') →
    breakNN p = none := by
  intro p
  induction p with
  | nil => intro _; rfl
  | cons c r ih =>
    intro h
    have hrec := ih fun d hd => h d (List.mem_cons_of_mem _ hd)
    have hc : ¬(c = '\n' ∧ r.head? = some '\n') :=
      fun hc => h c (List.mem_cons_self c r) hc.1
    simp only [breakNN, hrec, if_neg hc]

theorem breakNN_sep : ∀ (p rest : List Char), (∀ c ∈ p, c ≠ '\n') →
    breakNN (p ++ '\n' :: '\n' :: rest) = some (p, rest) := by
  intro p
  induction p with
  | nil =>
    intro rest _
    simp [breakNN]
  | cons c r ih =>
    intro rest h
    have hc : ¬(c = '\n' ∧ (r ++ '\n' :: '\n' :: rest).head? = some '\n') :=
      fun hc => h c (List.mem_cons_self c r) hc.1
    have hrec := ih rest fun d hd => h d (List.mem_cons_of_mem _ hd)
    simp only [List.cons_append, breakNN, List.append_eq, hrec, if_neg hc]

/-- Splitting a blank-line-joined list of newline-free non-empty
paragraphs recovers the paragraphs. -/
theorem splitParasGo_joinNN : ∀ (ps : List (List Char)) (fuel : Nat),
    ps ≠ [] → (∀ p ∈ ps, ∀ c ∈ p, c ≠ '\n') → (∀ p ∈ ps, p ≠ []) →
    (joinNN ps).length < fuel → splitParasGo fuel (joinNN ps) = ps := by
  intro ps
  induction ps with
  | nil => intro fuel h _ _ _; exact absurd rfl h
  | cons p qs ih =>
    intro fuel _ hnl hne hfuel
    cases qs with
    | nil =>
      cases fuel with
      | zero => rfl
      | succ f =>
        rw [show joinNN [p] = p from rfl]
        rw [splitParasGo,
          breakNN_none_of_no_nl (hnl p (List.mem_cons_self _ _))]
    | cons q rs =>
      cases fuel with
      | zero =>
        exact absurd hfuel (by omega)
      | succ f =>
        have hjoin : joinNN (p :: q :: rs) = p ++ '\n' :: '\n' :: joinNN (q :: rs) := rfl
        rw [hjoin] at hfuel ⊢
        simp only [splitParasGo,
          breakNN_sep p _ (hnl p (List.mem_cons_self _ _))]
        obtain ⟨c, q', rfl⟩ : ∃ c q', q = c :: q' := by
          cases q with
          | nil =>
            exact absurd rfl (hne [] (List.mem_cons_of_mem _ (List.mem_cons_self _ _)))
          | cons c q' => exact ⟨c, q', rfl⟩
        have hcne : ¬(c = '\n') :=
          hnl (c :: q') (List.mem_cons_of_mem _ (List.mem_cons_self _ _)) c
            (List.mem_cons_self _ _)
        obtain ⟨t, ht⟩ : ∃ t, joinNN ((c :: q') :: rs) = c :: t := by
          cases rs with
          | nil => exact ⟨q', rfl⟩
          | cons r rs2 => exact ⟨q' ++ '\n' :: '\n' :: joinNN (r :: rs2), rfl⟩
        rw [ht, List.dropWhile_cons, decide_eq_false hcne]
        simp only [Bool.false_eq_true, if_false]
        rw [← ht]
        have hfuel2 : (joinNN ((c :: q') :: rs)).length < f := by
          rw [List.length_append] at hfuel
          simp only [List.length_cons] at hfuel
          omega
        rw [ih f (List.cons_ne_nil _ _)
          (fun x hx => hnl x (List.mem_cons_of_mem _ hx))
          (fun x hx => hne x (List.mem_cons_of_mem _ hx)) hfuel2]

theorem c6_splitParas : splitParas c6Text = List.replicate 15 dotPara := by
  unfold splitParas c6Text
  apply splitParasGo_joinNN
  · simp
  · intro p hp c hc
    rw [List.eq_of_mem_replicate hp] at hc
    rw [List.eq_of_mem_replicate hc]
    decide
  · intro p hp
    rw [List.eq_of_mem_replicate hp]
    show List.replicate 60001 '.' ≠ []
    exact List.ne_nil_of_length_pos (by rw [List.length_replicate]; omega)
  · omega

theorem wordCountAux_dot_true : ∀ n,
    wordCountAux (List.replicate n '.') true = 0 := by
  intro n
  induction n with
  | zero => rfl
  | succ k ih =>
    rw [List.replicate_succ, wordCountAux, ih]
    simp [show isWsB '.' = false from by decide]

theorem wordCount_dotPara : wordCount dotPara = 1 := by
  unfold wordCount
  rw [show dotPara = '.' :: List.replicate 60000 '.' from rfl, wordCountAux,
    wordCountAux_dot_true]
  simp [show isWsB '.' = false from by decide]

theorem countP_replicate_pos (p : Char → Bool) (a : Char) (h : p a = true) :
    ∀ n, (List.replicate n a).countP p = n := by
  intro n
  induction n with
  | zero => rfl
  | succ k ih =>
    rw [List.replicate_succ, List.countP_cons, ih, h]
    simp

theorem estimateTokens_eq (l : List Char) :
    estimateTokens l =
      (13 * wordCount l + 5 * List.countP isPunctB l + 9) / 10 := rfl

theorem est_dotPara : estimateTokens dotPara = 30002 := by
  rw [estimateTokens_eq, wordCount_dotPara,
    show dotPara = List.replicate 60001 '.' from rfl,
    countP_replicate_pos isPunctB '.' (by decide) 60001]

/-- The whole 15-paragraph document estimates far above the 15000-token
budget (its first paragraph alone estimates at 30002). -/
theorem c6_est_gt : 15000 < estimateTokens c6Text := by
  have h2 : c6Text = dotPara ++ '\n' :: '\n' :: joinNN (List.replicate 14 dotPara) := rfl
  have hle := estimateTokens_le_append dotPara
    ('\n' :: '\n' :: joinNN (List.replicate 14 dotPara))
  rw [← h2, est_dotPara] at hle
  omega

theorem dropWhile_ws_dot (q : List Char) :
    ('.' :: q).dropWhile isWsB = '.' :: q := by
  rw [List.dropWhile_cons, show isWsB '.' = false from by decide]
  simp

theorem trim_dotPara : trim dotPara = dotPara := by
  show trim (List.replicate 60001 '.') = List.replicate 60001 '.'
  rw [show (60001 : Nat) = 60000 + 1 from rfl]
  unfold trim ltrim rtrim
  rw [List.replicate_succ' 60000]
  rw [List.reverse_append, List.reverse_replicate]
  simp only [List.reverse_cons, List.reverse_nil, List.nil_append,
    List.singleton_append]
  rw [dropWhile_ws_dot, List.reverse_cons, List.reverse_replicate]
  have : List.replicate 60000 '.' ++ ['.'] = '.' :: (List.replicate 59999 '.' ++ ['.']) := by
    rw [show (60000 : Nat) = 59999 + 1 from rfl, List.replicate_succ,
      List.cons_append]
  rw [this, dropWhile_ws_dot, ← List.cons_append, ← List.replicate_succ]

theorem dropPrefixCI_cons_ne (k : Char) (ks : List Char) (c : Char)
    (cs : List Char) (h : ¬(c.toLower = k)) :
    dropPrefixCI (k :: ks) (c :: cs) = none := by
  rw [dropPrefixCI, if_neg h]

theorem matchKwNum_dot (kw : List Char) (k : Char) (ks : List Char)
    (hkw : kw = k :: ks) (h : ¬(('.' : Char).toLower = k)) (rest : List Char) :
    matchKwNum kw ('.' :: rest) = none := by
  rw [matchKwNum, hkw, dropPrefixCI_cons_ne k ks '.' rest h]
  rfl

/-- No detection pattern matches a line beginning with a period. -/
theorem lineCandidates_dot (rest : List Char) :
    lineCandidates ('.' :: rest) = none := by
  have hch := matchKwNum_dot "chapter".toList 'c' "hapter".toList rfl (by decide) rest
  have hpa := matchKwNum_dot "part".toList 'p' "art".toList rfl (by decide) rest
  have hse := matchKwNum_dot "section".toList 's' "ection".toList rfl (by decide) rest
  have hnu : matchNumbered ('.' :: rest) = none := by
    rw [matchNumbered, dropWhile1, if_neg (by decide)]
    rfl
  have hsu : matchSubNumbered ('.' :: rest) = none := by
    rw [matchSubNumbered, dropWhile1, if_neg (by decide)]
    rfl
  have hro : matchRoman ('.' :: rest) = none := by
    rw [matchRoman, dropWhile1, if_neg (by decide)]
    rfl
  have hha : matchHash ('.' :: rest) = none := by
    simp only [matchHash, List.takeWhile_cons]
    rw [show (decide ('.' = '#')) = false from rfl]
    simp
  have hac : matchAllCapsB ('.' :: rest) = false := by
    simp only [matchAllCapsB, List.head?_cons]
    rw [show ('.' : Char).isUpper = false from rfl]
    simp
  rw [lineCandidates, hch, hpa, hse, hnu, hsu, hro, hha, hac]
  rfl

theorem detectLine_dot (rest : List Char) : detectLine ('.' :: rest) = none := by
  rw [detectLine, lineCandidates_dot]
  rfl

theorem splitLines_no_nl : ∀ (p : List Char), (∀ c ∈ p, c ≠ '\n') →
    splitLines p = [p] := by
  intro p
  induction p with
  | nil => intro _; rfl
  | cons c r ih =>
    intro h
    rw [splitLines, if_neg (h c (List.mem_cons_self c r)),
      ih fun d hd => h d (List.mem_cons_of_mem _ hd)]

theorem splitLines_sep : ∀ (p tail : List Char), (∀ c ∈ p, c ≠ '\n') →
    splitLines (p ++ '\n' :: tail) = p :: splitLines tail := by
  intro p
  induction p with
  | nil =>
    intro tail _
    rw [List.nil_append, splitLines, if_pos rfl]
  | cons c r ih =>
    intro tail h
    rw [List.cons_append, splitLines, if_neg (h c (List.mem_cons_self c r)),
      ih tail fun d hd => h d (List.mem_cons_of_mem _ hd)]

theorem splitLines_joinNN_mem : ∀ (ps : List (List Char)),
    (∀ p ∈ ps, ∀ c ∈ p, c ≠ '\n') →
    ∀ line ∈ splitLines (joinNN ps), line ∈ ps ∨ line = [] := by
  intro ps
  induction ps with
  | nil =>
    intro _ line hline
    rw [show joinNN [] = [] from rfl,
      show splitLines [] = [[]] from rfl] at hline
    simp at hline
    exact Or.inr hline
  | cons p qs ih =>
    intro h line hline
    cases qs with
    | nil =>
      rw [show joinNN [p] = p from rfl,
        splitLines_no_nl p (h p (List.mem_cons_self _ _))] at hline
      simp at hline
      exact Or.inl (by rw [hline]; exact List.mem_cons_self _ _)
    | cons q rs =>
      rw [show joinNN (p :: q :: rs) = p ++ '\n' :: '\n' :: joinNN (q :: rs) from rfl,
        splitLines_sep p _ (h p (List.mem_cons_self _ _)),
        splitLines, if_pos rfl] at hline
      rcases List.mem_cons.mp hline with rfl | hline2
      · exact Or.inl (List.mem_cons_self _ _)
      rcases List.mem_cons.mp hline2 with rfl | hline3
      · exact Or.inr rfl
      rcases ih (fun x hx => h x (List.mem_cons_of_mem _ hx)) line hline3 with hm | hn
      · exact Or.inl (List.mem_cons_of_mem _ hm)
      · exact Or.inr hn

theorem detectAux_eq_nil : ∀ (ls : List (List Char)) (idx : Nat),
    (∀ line ∈ ls, detectLine (trim line) = none) →
    detectAux ls idx = ([], [], []) := by
  intro ls
  induction ls with
  | nil => intro idx _; rfl
  | cons line rest ih =>
    intro idx h
    have h1 := ih (idx + line.length + 1) fun l hl => h l (List.mem_cons_of_mem _ hl)
    simp only [detectAux, h1, h line (List.mem_cons_self _ _)]

/-- The dot document has no detected headings: its only boundary is 0. -/
theorem c6_boundaries : (detectStructure c6Text).boundaries = [0] := by
  have hnl : ∀ p ∈ List.replicate 15 dotPara, ∀ c ∈ p, c ≠ '\n' := by
    intro p hp c hc
    rw [List.eq_of_mem_replicate hp] at hc
    rw [List.eq_of_mem_replicate hc]
    decide
  have hall : ∀ line ∈ splitLines c6Text, detectLine (trim line) = none := by
    intro line hline
    rcases splitLines_joinNN_mem (List.replicate 15 dotPara) hnl line hline with hmem | hnil
    · rw [List.eq_of_mem_replicate hmem, trim_dotPara,
        show dotPara = '.' :: List.replicate 60000 '.' from rfl]
      exact detectLine_dot _
    · rw [hnil]
      rfl
  simp only [detectStructure]
  rw [detectAux_eq_nil _ 0 hall]
  rfl

theorem mem_dropWhile_of_not : ∀ {l : List Char} {c : Char} {p : Char → Bool},
    c ∈ l → p c = false → c ∈ l.dropWhile p := by
  intro l
  induction l with
  | nil => intro c p hc _; exact absurd hc (List.not_mem_nil c)
  | cons a r ih =>
    intro c p hc hpc
    by_cases ha : p a = true
    · rw [List.dropWhile_cons, if_pos ha]
      rcases List.mem_cons.mp hc with rfl | hr
      · rw [hpc] at ha; exact absurd ha (by simp)
      · exact ih hr hpc
    · rw [List.dropWhile_cons, if_neg ha]
      exact hc

/-- A non-whitespace character of `l` survives `trim`. -/
theorem mem_trim_of_not_ws {l : List Char} {c : Char} (hc : c ∈ l)
    (hws : isWsB c = false) : c ∈ trim l := by
  unfold trim ltrim rtrim
  exact mem_dropWhile_of_not
    (List.mem_reverse.mpr (mem_dropWhile_of_not (List.mem_reverse.mpr hc) hws))
    hws

theorem sizeStep_dot_empty (sid : List Char) (segs : List Seg) (i s : Nat) :
    sizeStep sid 60000 0 ⟨segs, i, [], s⟩ dotPara =
      ⟨segs, i, dotPara ++ ['\n', '\n'], s⟩ := by
  have hcond : ¬(60000 < ([] : List Char).length +
      (dotPara ++ ['\n', '\n']).length ∧ ([] : List Char) ≠ []) :=
    fun hc => hc.2 rfl
  simp only [sizeStep]
  rw [if_neg hcond, List.nil_append]

theorem sizeStep_dot_full (sid : List Char) (segs : List Seg) (i s : Nat) :
    ∃ σ : Seg, sizeStep sid 60000 0 ⟨segs, i, dotPara ++ ['\n', '\n'], s⟩ dotPara =
      ⟨segs ++ [σ], i + 1, dotPara ++ ['\n', '\n'], s + 60003⟩ := by
  have hlen : (dotPara ++ ['\n', '\n']).length = 60003 := by
    rw [List.length_append, show dotPara = List.replicate 60001 '.' from rfl,
      List.length_replicate]
    rfl
  have hcond : 60000 < (dotPara ++ ['\n', '\n']).length +
      (dotPara ++ ['\n', '\n']).length ∧ (dotPara ++ ['\n', '\n']) ≠ [] := by
    constructor
    · rw [hlen]; omega
    · rw [show dotPara = '.' :: List.replicate 60000 '.' from rfl,
        List.cons_append]
      exact List.cons_ne_nil _ _
  refine ⟨⟨sid, i, 0 + s, 0 + s + (trim (dotPara ++ ['\n', '\n'])).length,
    none, 0, estimateTokens (trim (dotPara ++ ['\n', '\n'])),
    trim (dotPara ++ ['\n', '\n'])⟩, ?_⟩
  simp only [sizeStep]
  rw [if_pos hcond, hlen]

theorem foldl_sizeStep_dot : ∀ (k : Nat) (sid : List Char) (segs : List Seg) (i s : Nat),
    ∃ segs2 : List Seg,
      (List.replicate k dotPara).foldl (sizeStep sid 60000 0)
          ⟨segs, i, dotPara ++ ['\n', '\n'], s⟩ =
        ⟨segs2, i + k, dotPara ++ ['\n', '\n'], s + 60003 * k⟩ ∧
      segs2.length = segs.length + k := by
  intro k
  induction k with
  | zero =>
    intro sid segs i s
    exact ⟨segs, by simp, by simp⟩
  | succ k ih =>
    intro sid segs i s
    rw [List.replicate_succ, List.foldl_cons]
    obtain ⟨σ, hstep⟩ := sizeStep_dot_full sid segs i s
    rw [hstep]
    obtain ⟨segs2, hfold, hlen⟩ := ih sid (segs ++ [σ]) (i + 1) (s + 60003)
    rw [hfold]
    refine ⟨segs2, ?_, ?_⟩
    · rw [show i + 1 + k = i + (k + 1) from by omega,
        show s + 60003 + 60003 * k = s + 60003 * (k + 1) from by omega]
    · rw [hlen, List.length_append, List.length_singleton]
      omega

/-- Under the default 15000-token (60000-character) budget the dot document
splits into exactly 15 segments, one per oversized paragraph. -/
theorem c6_segment_count (sid : List Char) :
    (segmentDocument c6Text sid DEFAULT_OPTIONS).length = 15 := by
  have hdotmem : ('.' : Char) ∈ c6Text := by
    rw [show c6Text = dotPara ++ '\n' :: '\n' :: joinNN (List.replicate 14 dotPara) from rfl,
      show dotPara = '.' :: List.replicate 60000 '.' from rfl]
    exact List.mem_append_left _ (List.mem_cons_self _ _)
  have htrim : trim c6Text ≠ [] :=
    List.ne_nil_of_mem (mem_trim_of_not_ws hdotmem (by decide))
  have hest := c6_est_gt
  simp only [segmentDocument]
  rw [if_neg htrim]
  rw [if_neg (show ¬(estimateTokens c6Text ≤ DEFAULT_OPTIONS.maxTokensPerSegment) from by
    rw [show DEFAULT_OPTIONS.maxTokensPerSegment = 15000 from rfl]
    omega)]
  rw [if_neg (show ¬(DEFAULT_OPTIONS.respectSectionBoundaries = true ∧
      1 < (detectStructure c6Text).boundaries.length) from by
    rintro ⟨-, hb⟩
    rw [c6_boundaries] at hb
    simp at hb)]
  simp only [segmentBySize]
  rw [show tokensToChars DEFAULT_OPTIONS.maxTokensPerSegment = 60000 from rfl,
    c6_splitParas,
    show List.replicate 15 dotPara = dotPara :: List.replicate 14 dotPara from rfl,
    List.foldl_cons, sizeStep_dot_empty]
  obtain ⟨segs2, hfold, hlen⟩ := foldl_sizeStep_dot 14 sid [] 0 0
  rw [hfold]
  simp only [List.length_nil] at hlen
  have hpwbtrim : trim (dotPara ++ ['\n', '\n']) ≠ [] :=
    List.ne_nil_of_mem (mem_trim_of_not_ws
      (List.mem_append_left _ (by
        rw [show dotPara = '.' :: List.replicate 60000 '.' from rfl]
        exact List.mem_cons_self _ _))
      (by decide))
  split
  · rw [List.length_append, List.length_singleton]
    show segs2.length + 1 = 15
    omega
  · rename_i hno
    exact absurd hpwbtrim hno

theorem prefix_cons_cons {α : Type} {a b : α} {l1 l2 : List α} (h1 : a = b)
    (h2 : l1 <+: l2) : a :: l1 <+: b :: l2 := by
  subst h1
  obtain ⟨t, rfl⟩ := h2
  exact ⟨t, rfl⟩

theorem chain'_of_pre {α : Type} {R : α → α → Prop} {l1 l2 : List α}
    (h : List.Chain' R l2) (hp : l1 <+: l2) : List.Chain' R l1 := by
  obtain ⟨t, rfl⟩ := hp
  exact (List.chain'_append.mp h).1

theorem range_percent_cons (i T m : Nat) :
    (List.range (m + 1)).map (fun j => jsRoundDiv ((i + j + 1) * 80) T) =
      jsRoundDiv ((i + 1) * 80) T ::
        (List.range m).map (fun j => jsRoundDiv ((i + 1 + j + 1) * 80) T) := by
  rw [List.range_succ_eq_map, List.map_cons, List.map_map]
  refine congrArg₂ List.cons (by norm_num) ?_
  exact List.map_congr_left fun a _ => by
    simp only [Function.comp_apply, Nat.succ_eq_add_one]
    rw [show i + (a + 1) + 1 = i + 1 + a + 1 from by omega]

/-- The percents of the segment loop's events form a prefix of the
per-segment percent schedule (a proper prefix when a segment call fails). -/
theorem segLoop_percents_pre (gen : GenRequest → Except (List Char) GenOut)
    (sid ti : List Char) (n T : Nat) :
    ∀ (segs : List Seg) (i : Nat),
      (segLoop gen sid ti n T segs i).1.map (fun e => e.percent) <+:
        (List.range segs.length).map (fun j => jsRoundDiv ((i + j + 1) * 80) T) := by
  intro segs
  induction segs with
  | nil => intro i; simp [segLoop]
  | cons s rest ih =>
    intro i
    rw [List.length_cons, range_percent_cons]
    simp only [segLoop]
    cases hg : generateSegmentSummary gen s ti with
    | error e =>
      simp only [hg, List.map_cons, List.map_nil]
      exact prefix_cons_cons rfl List.nil_prefix
    | ok r =>
      simp only [hg, List.map_cons]
      exact prefix_cons_cons rfl (ih (i + 1))

/-- When the segment loop succeeds its events carry exactly the
per-segment percent schedule. -/
theorem segLoop_ok_percents (gen : GenRequest → Except (List Char) GenOut)
    (sid ti : List Char) (n T : Nat) :
    ∀ (segs : List Seg) (i : Nat) (q : List CreateSummaryInput × List (List Char)),
      (segLoop gen sid ti n T segs i).2 = .ok q →
      (segLoop gen sid ti n T segs i).1.map (fun e => e.percent) =
        (List.range segs.length).map (fun j => jsRoundDiv ((i + j + 1) * 80) T) := by
  intro segs
  induction segs with
  | nil => intro i q _; simp [segLoop]
  | cons s rest ih =>
    intro i q hok
    rw [List.length_cons, range_percent_cons]
    simp only [segLoop] at hok ⊢
    cases hg : generateSegmentSummary gen s ti with
    | error e =>
      simp only [hg] at hok
      exact absurd hok (by simp)
    | ok r =>
      simp only [hg] at hok ⊢
      simp only [List.map_cons]
      cases hres : (segLoop gen sid ti n T rest (i + 1)).2 with
      | error e =>
        rw [hres] at hok
        exact absurd hok (by simp [Except.map])
      | ok p2 =>
        rw [ih (i + 1) p2 hres]

/-- The percent sequence observed by a progress callback is always a
prefix of the schedule `pipelinePercents n`, where `n` is the number of
segments of the document. -/
theorem core_percents_pre (gen : GenRequest → Except (List Char) GenOut)
    (sid ti te : List Char) :
    ((generateHierarchicalSummariesCore gen sid ti te).1.map (fun e => e.percent)) <+:
      pipelinePercents (segmentDocument te sid DEFAULT_OPTIONS).length := by
  simp only [generateHierarchicalSummariesCore]
  generalize segmentDocument te sid DEFAULT_OPTIONS = segs
  have hpp : pipelinePercents segs.length =
      5 :: (((List.range segs.length).map fun j =>
        jsRoundDiv ((0 + j + 1) * 80) (segs.length + 3)) ++ [85, 92, 97, 100]) := by
    rw [pipelinePercents, List.cons_append]
    exact congrArg₂ List.cons rfl
      (congrArg (fun x => x ++ [85, 92, 97, 100])
        (List.map_congr_left fun a _ => by simp))
  rw [hpp]
  split
  · simp only [List.map_cons]
    exact prefix_cons_cons rfl
      ((segLoop_percents_pre gen sid ti segs.length (segs.length + 3) segs 0).trans
        (List.prefix_append _ _))
  · rename_i p hL
    have hfull := segLoop_ok_percents gen sid ti segs.length (segs.length + 3) segs 0 p hL
    split
    · simp only [List.map_cons, List.map_append, List.map_nil, hfull, List.cons_append]
      refine prefix_cons_cons rfl ⟨[92, 97, 100], ?_⟩
      simp
    · split
      · simp only [List.map_cons, List.map_append, List.map_nil, hfull, List.cons_append]
        refine prefix_cons_cons rfl ⟨[97, 100], ?_⟩
        simp
      · split
        · simp only [List.map_cons, List.map_append, List.map_nil, hfull, List.cons_append]
          refine prefix_cons_cons rfl ⟨[100], ?_⟩
          simp
        · simp only [List.map_cons, List.map_append, List.map_nil, hfull, List.cons_append]
          exact prefix_cons_cons rfl ⟨[], by simp⟩

theorem pipe_percents_pre (gen : GenRequest → Except (List Char) GenOut)
    (w : Bool) (sid ti te : List Char) :
    ((generateHierarchicalSummaries gen w sid ti te).1.map (fun e => e.percent)) <+:
      pipelinePercents (segmentDocument te sid DEFAULT_OPTIONS).length := by
  cases w with
  | false => simp [generateHierarchicalSummaries]
  | true => simpa [generateHierarchicalSummaries] using
      core_percents_pre gen sid ti te

/-- Executable monotonicity check (proof helper for kernel evaluation). -/
def chainLeB : List Nat → Bool
  | [] => true
  | [_] => true
  | a :: b :: t => decide (a ≤ b) && chainLeB (b :: t)

theorem chainLeB_iff : ∀ l : List Nat,
    chainLeB l = true ↔ List.Chain' (· ≤ ·) l := by
  intro l
  induction l with
  | nil => simp [chainLeB]
  | cons a t ih =>
    cases t with
    | nil => simp [chainLeB]
    | cons b t2 =>
      simp [chainLeB, Bool.and_eq_true, decide_eq_true_iff,
        List.chain'_cons, ih]

/-- The schedule is monotone for documents of at most 14 segments. -/
theorem pipelinePercents_chain_le_14 :
    ∀ n ∈ List.range 15, List.Chain' (· ≤ ·) (pipelinePercents n) := by
  have hB : ∀ n ∈ List.range 15, chainLeB (pipelinePercents n) = true := by decide
  intro n hn
  exact (chainLeB_iff _).mp (hB n hn)

/-- For a document with at least one segment, the first two percents any
progress callback sees are 5 (segmentation) and the first segment's
percent — whatever the oracle does. -/
theorem core_events_take2 (gen : GenRequest → Except (List Char) GenOut)
    (sid ti te : List Char) (s : Seg) (rest : List Seg)
    (hseg : segmentDocument te sid DEFAULT_OPTIONS = s :: rest) :
    (((generateHierarchicalSummariesCore gen sid ti te).1.map
      (fun e => e.percent)).take 2) =
      [5, jsRoundDiv 80 ((s :: rest).length + 3)] := by
  have hloop : ∃ t2, (segLoop gen sid ti (s :: rest).length ((s :: rest).length + 3)
      (s :: rest) 0).1.map (fun e => e.percent) =
      jsRoundDiv 80 ((s :: rest).length + 3) :: t2 := by
    cases hg : generateSegmentSummary gen s ti with
    | error e =>
      refine ⟨[], ?_⟩
      simp only [segLoop, hg]
      norm_num
    | ok r =>
      refine ⟨(segLoop gen sid ti (s :: rest).length ((s :: rest).length + 3) rest
        (0 + 1)).1.map (fun e => e.percent), ?_⟩
      simp only [segLoop, hg]
      norm_num
  obtain ⟨t2, ht2⟩ := hloop
  simp only [List.length_cons] at ht2
  simp only [generateHierarchicalSummariesCore, hseg]
  split
  · simp [ht2]
  · split
    · simp [ht2]
    · split
      · simp [ht2]
      · split
        · simp [ht2]
        · simp [ht2]

theorem pipe_events_true (gen : GenRequest → Except (List Char) GenOut)
    (sid ti te : List Char) :
    (generateHierarchicalSummaries gen true sid ti te).1 =
      (generateHierarchicalSummariesCore gen sid ti te).1 := rfl

theorem chain'_take2 {α : Type} {R : α → α → Prop} {l : List α} {a b : α}
    (h : List.Chain' R l) (ht : l.take 2 = [a, b]) : R a b := by
  cases l with
  | nil => simp at ht
  | cons x t =>
    cases t with
    | nil => simp at ht
    | cons y t2 =>
      rw [show (x :: y :: t2).take 2 = [x, y] from rfl] at ht
      injection ht with h1 htl
      injection htl with h2 htl2
      subst h1
      subst h2
      exact (List.chain'_cons.mp h).1

/-- The progress events of the run on the fifteen-paragraph dot document
(with a progress callback supplied and an always-succeeding oracle). -/
def c6Events : List ProgressEvent :=
  (generateHierarchicalSummaries constGen true "src".toList "Doc".toList
    c6Text).1

/-- The percent values that run reports to the callback. -/
def c6Percents : List Nat := c6Events.map (fun e => e.percent)

theorem c6Percents_eq : c6Percents =
    (generateHierarchicalSummariesCore constGen "src".toList "Doc".toList
      c6Text).1.map (fun e => e.percent) := by
  show c6Events.map (fun e => e.percent) = _
  rw [show c6Events = (generateHierarchicalSummaries constGen true "src".toList
    "Doc".toList c6Text).1 from rfl, pipe_events_true]

attribute [irreducible] c6Events c6Percents

/-- C6 counterexample: on the fifteen-paragraph dot document the percent
sequence reported to the progress callback is **not** monotonically
increasing — the run starts at percent 5 and the first per-segment event
then reports `Math.round((1 / 18) * 80) = 4`. -/
theorem hierarchical_progress_not_monotone :
    ¬ List.Chain' (· ≤ ·) c6Percents := by
  have h15 := c6_segment_count "src".toList
  obtain ⟨s, rest, hseg⟩ : ∃ s rest,
      segmentDocument c6Text "src".toList DEFAULT_OPTIONS = s :: rest := by
    cases h : segmentDocument c6Text "src".toList DEFAULT_OPTIONS with
    | nil => rw [h] at h15; exact absurd h15 (by simp)
    | cons a b => exact ⟨a, b, rfl⟩
  rw [hseg] at h15
  intro hchain
  have htake := core_events_take2 constGen "src".toList "Doc".toList c6Text s rest hseg
  rw [h15, ← c6Percents_eq] at htake
  have h54 := chain'_take2 hchain htake
  norm_num [jsRoundDiv] at h54

/-- C6 (amended): whenever the document yields at most 14 segments the
percent sequence passed to the progress callback is monotonically
non-decreasing (for every oracle, including failing ones), and supplying
or omitting the callback never changes the returned result. -/
theorem hierarchical_progress_monotone_small
    (gen : GenRequest → Except (List Char) GenOut) (sid ti te : List Char)
    (h : (segmentDocument te sid DEFAULT_OPTIONS).length ≤ 14) :
    List.Chain' (· ≤ ·)
      ((generateHierarchicalSummaries gen true sid ti te).1.map
        (fun e => e.percent)) ∧
      (generateHierarchicalSummaries gen true sid ti te).2 =
        (generateHierarchicalSummaries gen false sid ti te).2 := by
  refine ⟨?_, rfl⟩
  exact chain'_of_pre
    (pipelinePercents_chain_le_14 _ (List.mem_range.mpr (by omega)))
    (pipe_percents_pre gen true sid ti te)

/-- C6 witness: on the one-segment document `"hello world"` with an
always-succeeding oracle, the observed percents are monotone and the
callback does not affect the result. -/
theorem hierarchical_progress_monotone_small_witness :
    List.Chain' (· ≤ ·)
      ((generateHierarchicalSummaries constGen true "src".toList "Doc".toList
        "hello world".toList).1.map (fun e => e.percent)) ∧
      (generateHierarchicalSummaries constGen true "src".toList "Doc".toList
          "hello world".toList).2 =
        (generateHierarchicalSummaries constGen false "src".toList "Doc".toList
          "hello world".toList).2 :=
  hierarchical_progress_monotone_small constGen "src".toList "Doc".toList
    "hello world".toList (by decide)

end Shortform
